import Mathlib

/-!
Verification development for the weather-image generator (`src/main.py`).

The repository's algorithmic core is `generate_weather_image`: a two-pass
(measure, then draw) text layout engine built on Python's `textwrap.wrap`,
plus the helpers `load_system_font` and `get_wind_direction`.  This file
gives a shallow embedding of those functions and proves the specification
claims about them.

Modelling conventions:
* strings are `List Char`; Python `str` methods (`split`, `strip`,
  `replace`, `startswith`/`endswith`) are embedded as list functions;
* Python `textwrap.wrap` (default `TextWrapper` options: `expand_tabs`,
  `replace_whitespace`, `drop_whitespace`, `break_long_words`,
  `break_on_hyphens` all true) is embedded faithfully, with the
  `wordsep_re` chunking regex realised as an explicit scanner over the
  (ASCII) character classes it uses;
* PIL font objects are opaque capability records (`FontH`): a text-bbox
  height, a text-bbox width and a `textlength` measurement, mirroring the
  spec's "font handle" capability set; real arithmetic is modelled by `ℚ`;
* the filesystem seen by `load_system_font` is a record of pure functions
  (`FsEnv`); loading failures (`IOError`) are `Option`.
-/

set_option maxRecDepth 8000

namespace WeatherBot

/-! ### Character classes (ASCII model of the Python regex classes) -/

/-- Python whitespace as used by `textwrap` (`_whitespace = '\t\n\x0b\x0c\r '`). -/
def isSpaceChar (c : Char) : Bool :=
  c = ' ' || c = '\t' || c = '\n' || c = '\x0b' || c = '\x0c' || c = '\r'

/-- Python regex `\w` (ASCII model): letters, digits, underscore. -/
def isWordChar (c : Char) : Bool :=
  c.isAlpha || c.isDigit || c = '_'

/-- Python regex class `[^\d\W]`: a word char that is not a digit. -/
def isLetterChar (c : Char) : Bool :=
  isWordChar c && !c.isDigit

/-- The lookbehind class `[\w!"\'&.,?]` of `wordsep_re`'s em-dash rule. -/
def isPunctBeforeDash (c : Char) : Bool :=
  isWordChar c || c = '!' || c = '"' || c = Char.ofNat 39 ||
    c = '&' || c = '.' || c = ',' || c = '?'

/-! ### `str.expandtabs` / `_munge_whitespace` -/

/-- Python `str.expandtabs(8)`: each tab becomes spaces up to the next
multiple-of-8 column; newline and carriage return reset the column. -/
def expandTabsGo : Nat → List Char → List Char
  | _, [] => []
  | col, c :: cs =>
    if c = '\t' then
      List.replicate (8 - col % 8) ' ' ++ expandTabsGo (col + (8 - col % 8)) cs
    else if c = '\n' || c = '\r' then c :: expandTabsGo 0 cs
    else c :: expandTabsGo (col + 1) cs

/-- `TextWrapper._munge_whitespace`: expand tabs, then map every
whitespace character to a plain space. -/
def mungeWhitespace (s : List Char) : List Char :=
  (expandTabsGo 0 s).map (fun c => if isSpaceChar c then ' ' else c)

/-! ### The `wordsep_re` chunk scanner

`TextWrapper._split` splits munged text into chunks with `wordsep_re`:
whitespace runs, em-dash runs between word characters, and words that are
additionally cut after certain hyphens.  We realise the regex as a
left-to-right scanner; `condA`/`condB`/`condC` are the three alternatives
(in the regex's order) at which the lazy `\S+?` word match may stop. -/

/-- Test the character at an index (out of range tests false, as for a
regex look-around falling off the string). -/
def tst (s : List Char) (i : Nat) (p : Char → Bool) : Bool :=
  match s.get? i with
  | some c => p c
  | none => false

def hyphAt (s : List Char) (i : Nat) : Bool := tst s i (· = '-')

def spaceAt (s : List Char) (i : Nat) : Bool := tst s i isSpaceChar

def letterAt (s : List Char) (i : Nat) : Bool := tst s i isLetterChar

def wordAt (s : List Char) (i : Nat) : Bool := tst s i isWordChar

/-- Regex class `[\d\W]`: digit or non-word character. -/
def dnwAt (s : List Char) (i : Nat) : Bool :=
  tst s i (fun c => c.isDigit || !isWordChar c)

/-- Length of the run of hyphens starting at index `i`. -/
def hyphenRunLen (s : List Char) (i : Nat) : Nat :=
  ((s.drop i).takeWhile (· = '-')).length

/-- Alternative `-(?:(?<=[^\d\W]{2}-)|(?<=[\d\W]-[^\d\W]-))(?=[^\d\W]-?[^\d\W])`:
the word chunk ends just after the hyphen at `q`. -/
def condA (s : List Char) (q : Nat) : Bool :=
  hyphAt s q &&
    ((decide (2 ≤ q) && letterAt s (q-2) && letterAt s (q-1)) ||
     (decide (3 ≤ q) && dnwAt s (q-3) && hyphAt s (q-2) && letterAt s (q-1))) &&
    letterAt s (q+1) &&
    (letterAt s (q+2) || (hyphAt s (q+2) && letterAt s (q+3)))

/-- Alternative `(?=\s|\Z)`: the word chunk ends before whitespace or at
the end of the string. -/
def condB (s : List Char) (q : Nat) : Bool :=
  decide (s.length ≤ q) || spaceAt s q

/-- Alternative `(?<=[\w!"\'&.,?])(?=-{2,}\w)`: the word chunk ends before
an em-dash run that is followed by a word character. -/
def condC (s : List Char) (q : Nat) : Bool :=
  decide (1 ≤ q) && tst s (q-1) isPunctBeforeDash &&
    decide (2 ≤ hyphenRunLen s q) && wordAt s (q + hyphenRunLen s q)

/-- End (exclusive) of the lazy `\S+?(...)` word match that started before
index `q`; the alternatives are tried in the regex's order at each
position.  Fuel-driven so that the kernel can evaluate it. -/
def wordEndGo (s : List Char) : Nat → Nat → Nat
  | 0, q => q
  | fuel+1, q =>
    if s.length ≤ q then s.length
    else if condA s q then q + 1
    else if condB s q then q
    else if condC s q then q
    else wordEndGo s fuel (q + 1)

/-- Slice `s[i:j]`. -/
def sliceStr (s : List Char) (i j : Nat) : List Char :=
  (s.drop i).take (j - i)

/-- `wordsep_re` applied at position `i` of the (munged) text: whitespace
run, em-dash chunk, or word chunk, repeated to the end of the string. -/
def chunkSplitGo (s : List Char) : Nat → Nat → List (List Char)
  | 0, _ => []
  | fuel+1, i =>
    if s.length ≤ i then []
    else if spaceAt s i then
      let j := i + ((s.drop i).takeWhile isSpaceChar).length
      sliceStr s i j :: chunkSplitGo s fuel j
    else if decide (1 ≤ i) && wordAt s (i-1) && decide (2 ≤ hyphenRunLen s i) &&
        wordAt s (i + hyphenRunLen s i) then
      let j := i + hyphenRunLen s i
      sliceStr s i j :: chunkSplitGo s fuel j
    else
      let q := wordEndGo s (s.length + 1) (i + 1)
      sliceStr s i q :: chunkSplitGo s fuel q

/-- `TextWrapper._split` on already-munged text. -/
def chunkSplit (s : List Char) : List (List Char) :=
  chunkSplitGo s (s.length + 1) 0

/-! ### `TextWrapper._wrap_chunks` -/

/-- `chunk.strip() == ''`. -/
def isBlank (s : List Char) : Bool := s.all isSpaceChar

/-- Python `str.strip()`. -/
def pyStrip (s : List Char) : List Char :=
  ((s.dropWhile isSpaceChar).reverse.dropWhile isSpaceChar).reverse

/-- The inner `while chunks` loop: greedily move chunks onto the current
line while they fit.  Returns (taken chunks, accumulated length, rest). -/
def takeFits (w : Nat) : Nat → List (List Char) → List (List Char) × Nat × List (List Char)
  | curLen, [] => ([], curLen, [])
  | curLen, c :: cs =>
    if curLen + c.length ≤ w then
      let r := takeFits w (curLen + c.length) cs
      (c :: r.1, r.2.1, r.2.2)
    else
      ([], curLen, c :: cs)

/-- Python `chunk.rfind('-', 0, stop)` as an `Option` index. -/
def rfindHyphen (s : List Char) (stop : Nat) : Option Nat :=
  ((List.range stop).filter (fun i => hyphAt s i)).getLast?

/-- `TextWrapper._handle_long_word` with `break_long_words = true` and
`break_on_hyphens = true`: cut `space_left` characters off the chunk,
preferring a cut just after the last hyphen that fits and has a
non-hyphen before it.  Returns (piece for the line, remainder). -/
def handleLongWord (w curLen : Nat) (chunk : List Char) : List Char × List Char :=
  let spaceLeft := if w < 1 then 1 else w - curLen
  let cut :=
    if decide (spaceLeft < chunk.length) then
      match rfindHyphen chunk spaceLeft with
      | some h =>
        if decide (0 < h) && !((chunk.take h).all (· = '-')) then h + 1 else spaceLeft
      | none => spaceLeft
    else spaceLeft
  (chunk.take cut, chunk.drop cut)

/-- Drop the final chunk of the current line when it is pure whitespace
(`drop_whitespace` trailing rule; at most one chunk is dropped). -/
def dropTrailingBlank (cl : List (List Char)) : List (List Char) :=
  match cl.getLast? with
  | some t => if isBlank t then cl.dropLast else cl
  | none => cl

/-- The `drop_whitespace` leading rule: once a line has been emitted, a
whitespace chunk at the head of the queue is deleted. -/
def dropLeadBlank (started : Bool) (chunks : List (List Char)) : List (List Char) :=
  match chunks with
  | c :: cs => if started && isBlank c then cs else chunks
  | [] => []

/-- Fill one line: take chunks greedily while they fit, then if the next
chunk alone exceeds the width, cut it with the long-word handler.
Returns (the chunks of the line, the remaining queue). -/
def fillLine (w : Nat) (chunks : List (List Char)) :
    List (List Char) × List (List Char) :=
  match takeFits w 0 chunks with
  | (cur, curLen, c :: cs) =>
    if w < c.length then
      match handleLongWord w curLen c with
      | (piece, rem) => (cur ++ [piece], rem :: cs)
    else (cur, c :: cs)
  | (cur, _, []) => (cur, [])

/-- One iteration of the outer `while chunks` loop of `_wrap_chunks`:
optionally drop a leading whitespace chunk (only once a line has been
emitted), fill the line greedily, apply the long-word handler when the
next chunk exceeds the width, drop a trailing whitespace chunk, and emit
the line if anything remains.  Returns (emitted line, remaining chunks). -/
def wrapStep (w : Nat) (started : Bool) (chunks : List (List Char)) :
    Option (List Char) × List (List Char) :=
  let fl := fillLine w (dropLeadBlank started chunks)
  let cl := dropTrailingBlank fl.1
  (if cl.isEmpty then none else some cl.flatten, fl.2)

/-- Termination measure of `_wrap_chunks`: total character count plus
chunk count (both shrink as chunks are consumed or split). -/
def msr (cs : List (List Char)) : Nat := (cs.map List.length).sum + cs.length

/-- The outer loop of `_wrap_chunks`, fuel-driven; `acc` holds the lines
emitted so far in reverse. -/
def wrapLoopGo (w : Nat) : Nat → List (List Char) → List (List Char) → List (List Char)
  | 0, acc, _ => acc.reverse
  | fuel+1, acc, chunks =>
    if chunks.isEmpty then acc.reverse
    else
      match wrapStep w (!acc.isEmpty) chunks with
      | (some l, rest) => wrapLoopGo w fuel (l :: acc) rest
      | (none, rest) => wrapLoopGo w fuel acc rest

/-- `textwrap.wrap(s, width = w)` with the default options used by
`generate_weather_image` (the code always passes `w ≥ 50`). -/
def pyWrap (w : Nat) (s : List Char) : List (List Char) :=
  let cs := chunkSplit (mungeWhitespace s)
  wrapLoopGo w (msr cs) [] cs

/-! ### Python `str.split()` (whitespace words) and other str helpers -/

/-- Worker for `str.split()`: `acc` is the current word, reversed. -/
def pyWordsGo : List Char → List Char → List (List Char)
  | acc, [] => if acc.isEmpty then [] else [acc.reverse]
  | acc, c :: cs =>
    if isSpaceChar c then
      if acc.isEmpty then pyWordsGo [] cs else acc.reverse :: pyWordsGo [] cs
    else pyWordsGo (c :: acc) cs

/-- Python `str.split()` with no arguments: the whitespace-separated words. -/
def pyWords (s : List Char) : List (List Char) := pyWordsGo [] s

/-- Worker for `str.split('\n')`. -/
def splitNlGo : List Char → List Char → List (List Char)
  | acc, [] => [acc.reverse]
  | acc, c :: cs =>
    if c = '\n' then acc.reverse :: splitNlGo [] cs else splitNlGo (c :: acc) cs

/-- Python `str.split('\n')` (keeps empty parts; one more part than
separators). -/
def pySplitNl (s : List Char) : List (List Char) := splitNlGo [] s

/-- Python `str.replace('**', '')`: left-to-right, non-overlapping. -/
def removeStars : List Char → List Char
  | '*' :: '*' :: rest => removeStars rest
  | c :: rest => c :: removeStars rest
  | [] => []

/-- `line.strip().startswith('**') and line.strip().endswith('**')`. -/
def isHeadingLine (l : List Char) : Bool :=
  let t := pyStrip l
  (t.take 2 == ['*', '*']) && (t.reverse.take 2 == ['*', '*'])

/-- `line.strip().replace('**', '')`: the city name drawn for a heading. -/
def headingName (l : List Char) : List Char := removeStars (pyStrip l)

/-! ### Font handles and the font resolver (`load_system_font`) -/

/-- A PIL font handle, as the capability record the layout code uses:
`hBB t` is `bbox[3] - bbox[1]` and `wBB t` is `bbox[2] - bbox[0]` of
`textbbox((0,0), t, font)`, and `tLen` is `textlength`. -/
structure FontH where
  hBB : List Char → Nat
  wBB : List Char → Nat
  tLen : List Char → ℚ

/-- The ambient filesystem and font loader: `pathExists` is
`os.path.exists`, `loadFont` is `ImageFont.truetype` (`none` = the
`IOError` the code catches), `fallback` is
`ImageFont.load_default().font_variant(size=size)`. -/
structure FsEnv where
  pathExists : String → Bool
  loadFont : String → ℚ → Option FontH
  fallback : ℚ → FontH

/-- The candidate font path table of `load_system_font`
(`font_paths.get(font_name, [])`). -/
def fontPaths (name : String) : List String :=
  if name = "Arial Rounded MT Bold" then
    ["/Library/Fonts/Arial Rounded Bold.ttf",
     "/usr/share/fonts/truetype/msttcorefonts/ARLRDBD.TTF",
     "C:/Windows/Fonts/ARLRDBD.TTF",
     "ARLRDBD.TTF",
     "/Library/Fonts/Arial Rounded MT Bold.ttf"]
  else if name = "Arial Rounded MT Regular" then
    ["/Library/Fonts/Arial Rounded.ttf",
     "/usr/share/fonts/truetype/msttcorefonts/ARLRDR.TTF",
     "C:/Windows/Fonts/ARLRDR.TTF",
     "ARLRDR.TTF",
     "/Library/Fonts/Arial Rounded MT Regular.ttf"]
  else if name = "Arial-Bold" then
    ["/Library/Fonts/Arial Bold.ttf",
     "/usr/share/fonts/truetype/msttcorefonts/Arial_Bold.ttf",
     "C:/Windows/Fonts/arialbd.ttf",
     "arialbd.ttf"]
  else if name = "Arial-Regular" then
    ["/Library/Fonts/Arial.ttf",
     "/usr/share/fonts/truetype/msttcorefonts/Arial.ttf",
     "C:/Windows/Fonts/arial.ttf",
     "arial.ttf"]
  else []

/-- The candidate loop of `load_system_font`: the first path that exists
and loads (an `IOError` means `continue`). -/
def tryPaths (env : FsEnv) (size : ℚ) : List String → Option FontH
  | [] => none
  | p :: ps =>
    if env.pathExists p then
      match env.loadFont p size with
      | some f => some f
      | none => tryPaths env size ps
    else tryPaths env size ps

/-- `load_system_font(font_name, size)`: first usable candidate path, else
the default PIL font at the requested size (with a printed warning). -/
def load_system_font (env : FsEnv) (name : String) (size : ℚ) : FontH :=
  match tryPaths env size (fontPaths name) with
  | some f => f
  | none => env.fallback size

/-! ### Layout constants and text constants of `generate_weather_image` -/

def canvasW : Nat := 1200
def paddingX : Nat := 50
def paddingY : Nat := 30
def lineSpacing : Nat := 5
def paragraphSpacing : Nat := 18
def cityBlockSpacing : Nat := 10
def footerH : Nat := 30
def footerPaddingY : Nat := 30

def titleText : List Char :=
  "Current Weather & 3-Hour Forecast: Major US Cities".toList

def footerText : List Char :=
  "Weather data provided by OpenWeatherMap".toList

/-- `test_string_for_width`, the pangram measured for the average glyph
width (43 characters). -/
def pangram : List Char :=
  "the quick brown fox jumps over the lazy dog".toList

/-- Python `int()` on a rational: truncation toward zero. -/
def pyInt (x : ℚ) : Int :=
  if x < 0 then -(Int.floor (-x)) else Int.floor x

/-- `wrap_width_chars` as a function of the measured pixel width of the
pangram under the body font:
`max(int((width - 2*padding_x) / avg_char_width * 0.95), 50)`. -/
def wrapWidthChars (pangramW : ℚ) : Int :=
  let maxTextW : ℚ := (canvasW : ℚ) - 2 * (paddingX : ℚ)
  let avg : ℚ := pangramW / (pangram.length : ℚ)
  max (pyInt (maxTextW / avg * (95 / 100))) 50

/-- The character budget actually handed to `textwrap.wrap`. -/
def wrapWidth (body : FontH) : Nat :=
  (wrapWidthChars (body.tLen pangram)).toNat

/-- The four font handles resolved at the top of `generate_weather_image`. -/
structure Fonts where
  titleF : FontH
  cityF : FontH
  bodyF : FontH
  footerF : FontH

def resolveFonts (env : FsEnv) : Fonts :=
  ⟨load_system_font env "Arial Rounded MT Bold" 36,
   load_system_font env "Arial Rounded MT Bold" 31,
   load_system_font env "Arial-Regular" (45 / 2),
   load_system_font env "Arial-Bold" 22⟩

/-! ### Measure pass (the height-calculation loop, main.py lines 303-353) -/

/-- Which of the four font handles a draw uses. -/
inductive FTag
  | title
  | city
  | body
  | footer
deriving DecidableEq

/-- A planned text line: its y position, its text and its font. -/
structure Drawn where
  y : Nat
  txt : List Char
  tag : FTag
deriving DecidableEq

/-- A measured block of the layout plan: the cursor position on entry,
the measured height of its rendered lines, and its spacing-after. -/
structure BEntry where
  y : Nat
  h : Nat
  s : Nat
deriving DecidableEq

/-- Height a paragraph's wrapped lines add to the cursor:
`sum (bbox height + line_spacing)`. -/
def paraHeight (F : Fonts) (ws : List (List Char)) : Nat :=
  ws.foldl (fun a t => a + F.bodyF.hBB t + lineSpacing) 0

/-- The per-wrapped-line entries of a paragraph, with their y positions. -/
def paraDrawnGo (F : Fonts) : Nat → List (List Char) → List Drawn
  | _, [] => []
  | y, t :: ts => ⟨y, t, FTag.body⟩ :: paraDrawnGo F (y + F.bodyF.hBB t + lineSpacing) ts

/-- Measure one line of a city text block (one iteration of the
`for line in lines` measuring loop): a `**...**` line is a city heading;
otherwise the line is wrapped and each wrapped line contributes its bbox
height plus `line_spacing`, with `paragraph_spacing` added for blank
lines.  Returns (new cursor, planned draws, the block's plan entry). -/
def measureLine (F : Fonts) (w : Nat) (y : Nat) (l : List Char) :
    Nat × List Drawn × BEntry :=
  if isHeadingLine l then
    let nm := headingName l
    let hh := F.cityF.hBB nm
    (y + hh + paragraphSpacing, [⟨y, nm, FTag.city⟩], ⟨y, hh, paragraphSpacing⟩)
  else
    let ws := pyWrap w l
    let hh := paraHeight F ws
    let sp := if (pyStrip l).isEmpty then paragraphSpacing else 0
    (y + hh + sp, paraDrawnGo F y ws, ⟨y, hh, sp⟩)

/-- Measure a list of lines in order. -/
def measureLines (F : Fonts) (w : Nat) : Nat → List (List Char) → Nat × List Drawn × List BEntry
  | y, [] => (y, [], [])
  | y, l :: ls =>
    let r := measureLine F w y l
    let rest := measureLines F w r.1 ls
    (rest.1, r.2.1 ++ rest.2.1, r.2.2 :: rest.2.2)

/-- Add `k` to the spacing-after of the last entry (the
`city_block_spacing` added after each city's lines). -/
def bumpLastS (k : Nat) : List BEntry → List BEntry
  | [] => []
  | [e] => [⟨e.y, e.h, e.s + k⟩]
  | e :: es => e :: bumpLastS k es

/-- Measure one city text block: split on newlines, measure each line,
then add `city_block_spacing`. -/
def measureCityBlock (F : Fonts) (w : Nat) (y : Nat) (tb : List Char) :
    Nat × List Drawn × List BEntry :=
  let r := measureLines F w y (pySplitNl tb)
  (r.1 + cityBlockSpacing, r.2.1, bumpLastS cityBlockSpacing r.2.2)

/-- Measure all city text blocks in order. -/
def measureBlocks (F : Fonts) (w : Nat) : Nat → List (List Char) → Nat × List Drawn × List BEntry
  | y, [] => (y, [], [])
  | y, tb :: tbs =>
    let r := measureCityBlock F w y tb
    let rest := measureBlocks F w r.1 tbs
    (rest.1, r.2.1 ++ rest.2.1, r.2.2 ++ rest.2.2)

/-- Cursor position at which the first city block starts:
`padding_y + title_height + padding_y`. -/
def startY (F : Fonts) : Nat := paddingY + F.titleF.hBB titleText + paddingY

/-- The cursor after the measuring loop has also accounted for the footer
(`current_y` just before `final_height` is formed). -/
def measureCursorAfterFooter (F : Fonts) (w : Nat) (texts : List (List Char)) : Nat :=
  (measureBlocks F w (startY F) texts).1 + footerPaddingY + F.footerF.hBB footerText

/-- `final_height = current_y + padding_y`. -/
def measureHeight (F : Fonts) (w : Nat) (texts : List (List Char)) : Nat :=
  measureCursorAfterFooter F w texts + paddingY

/-- The measured layout plan: the title block entry followed by one entry
per line of each city block. -/
def measurePlan (F : Fonts) (w : Nat) (texts : List (List Char)) : List BEntry :=
  ⟨paddingY, F.titleF.hBB titleText, paddingY⟩ :: (measureBlocks F w (startY F) texts).2.2

/-- The planned body/heading draws, in order. -/
def measureDrawn (F : Fonts) (w : Nat) (texts : List (List Char)) : List Drawn :=
  (measureBlocks F w (startY F) texts).2.1

/-! ### Render pass (the drawing loop, main.py lines 355-394) -/

def COLOR_DARK_BLUE : Nat × Nat × Nat := (33, 52, 72)
def COLOR_MEDIUM_BLUE : Nat × Nat × Nat := (84, 119, 146)
def COLOR_LIGHT_BLUE : Nat × Nat × Nat := (148, 180, 193)
def COLOR_LIGHT_YELLOW : Nat × Nat × Nat := (236, 239, 202)

/-- One emitted `d.text(...)` call: position, text, font and fill color. -/
structure Cmd where
  x : ℚ
  y : Nat
  txt : List Char
  tag : FTag
  color : Nat × Nat × Nat
deriving DecidableEq

/-- Draw the wrapped lines of a paragraph at `padding_x`, advancing the
cursor by bbox height plus `line_spacing` per line. -/
def renderParaGo (F : Fonts) : Nat → List (List Char) → Nat × List Cmd
  | y, [] => (y, [])
  | y, t :: ts =>
    let r := renderParaGo F (y + F.bodyF.hBB t + lineSpacing) ts
    (r.1, ⟨(paddingX : ℚ), y, t, FTag.body, COLOR_DARK_BLUE⟩ :: r.2)

/-- Render one line of a city text block (one iteration of the drawing
`for line in lines` loop); note it re-runs `textwrap.wrap` with the same
`wrap_width_chars`. -/
def renderLine (F : Fonts) (w : Nat) (y : Nat) (l : List Char) : Nat × List Cmd :=
  if isHeadingLine l then
    let nm := headingName l
    (y + F.cityF.hBB nm + paragraphSpacing,
     [⟨(paddingX : ℚ), y, nm, FTag.city, COLOR_DARK_BLUE⟩])
  else
    let ws := pyWrap w l
    let r := renderParaGo F y ws
    (r.1 + (if (pyStrip l).isEmpty then paragraphSpacing else 0), r.2)

/-- Render a list of lines in order. -/
def renderLines (F : Fonts) (w : Nat) : Nat → List (List Char) → Nat × List Cmd
  | y, [] => (y, [])
  | y, l :: ls =>
    let r := renderLine F w y l
    let rest := renderLines F w r.1 ls
    (rest.1, r.2 ++ rest.2)

/-- Render one city text block, then advance by `city_block_spacing`. -/
def renderCityBlock (F : Fonts) (w : Nat) (y : Nat) (tb : List Char) : Nat × List Cmd :=
  let r := renderLines F w y (pySplitNl tb)
  (r.1 + cityBlockSpacing, r.2)

/-- Render all city text blocks in order. -/
def renderBlocks (F : Fonts) (w : Nat) : Nat → List (List Char) → Nat × List Cmd
  | y, [] => (y, [])
  | y, tb :: tbs =>
    let r := renderCityBlock F w y tb
    let rest := renderBlocks F w r.1 tbs
    (rest.1, r.2 ++ rest.2)

/-- The title draw: horizontally centered at `padding_y`. -/
def titleCmd (F : Fonts) : Cmd :=
  ⟨((canvasW : ℚ) - (F.titleF.wBB titleText : ℚ)) / 2, paddingY,
   titleText, FTag.title, COLOR_DARK_BLUE⟩

/-- The footer draw: horizontally centered at `y_offset + footer_padding_y`. -/
def footerCmd (F : Fonts) (yAfterBlocks : Nat) : Cmd :=
  ⟨((canvasW : ℚ) - (F.footerF.wBB footerText : ℚ)) / 2,
   yAfterBlocks + footerPaddingY, footerText, FTag.footer, COLOR_MEDIUM_BLUE⟩

/-- The full render pass: the title, every city block starting from
`padding_y + title_height + padding_y`, then the footer.  Returns the
cursor after the blocks and the emitted draw calls. -/
def renderDoc (F : Fonts) (w : Nat) (texts : List (List Char)) : Nat × List Cmd :=
  let r := renderBlocks F w (startY F) texts
  (r.1, titleCmd F :: r.2 ++ [footerCmd F r.1])

/-- The encoded image as its observable content: dimensions, background
and the draw calls that produced the pixels. -/
structure ImageOut where
  w : Nat
  h : Nat
  bg : Nat × Nat × Nat
  cmds : List Cmd
deriving DecidableEq

/-- `generate_weather_image(weather_texts)`: resolve fonts, compute the
wrap budget, measure the total height, then render. -/
def generate_weather_image (env : FsEnv) (texts : List (List Char)) : ImageOut :=
  let F := resolveFonts env
  let w := wrapWidth F.bodyF
  ⟨canvasW, measureHeight F w texts, COLOR_LIGHT_YELLOW, (renderDoc F w texts).2⟩

/-! ### `get_wind_direction` -/

def windDirections : List String :=
  ["North", "North-Northeast", "Northeast", "East-Northeast", "East",
   "East-Southeast", "Southeast", "South-Southeast", "South",
   "South-Southwest", "Southwest", "West-Southwest", "West",
   "West-Northwest", "Northwest", "North-Northwest"]

/-- Python `%` on reals: the result takes the sign of the divisor
(`a - b * floor(a / b)`). -/
def pyMod (a b : ℚ) : ℚ := a - b * (Int.floor (a / b) : ℤ)

/-- Python `round()` on a rational: round half to even. -/
def roundHalfEven (x : ℚ) : Int :=
  let f := Int.floor x
  if x - (f : ℚ) < 1 / 2 then f
  else if (1 : ℚ) / 2 < x - (f : ℚ) then f + 1
  else if f % 2 = 0 then f else f + 1

/-- The index computed by `get_wind_direction`:
`round((deg % 360) / (360 / 16)) % 16`. -/
def windIdx (deg : ℚ) : Int :=
  roundHalfEven (pyMod deg 360 / ((360 : ℚ) / 16)) % 16

/-- `get_wind_direction(deg)`; the list indexing is modelled as `get?`
(Python raises `IndexError` when out of range). -/
def get_wind_direction (deg : ℚ) : Option String :=
  windDirections.get? (windIdx deg).toNat

/-! ### Auxiliary definitions used by the statements and proofs -/

/-- The non-whitespace characters of a string, in order. -/
def solidChars (s : List Char) : List Char :=
  s.filter (fun c => !isSpaceChar c)

/-- The non-whitespace chunks of a chunk list, in order. -/
def wordChunks (cs : List (List Char)) : List (List Char) :=
  cs.filter (fun c => !isBlank c)

/-- `" ".join(lines)`. -/
def joinSpace : List (List Char) → List Char
  | [] => []
  | [l] => l
  | l :: ls => l ++ ' ' :: joinSpace ls

/-- Successive `w`-sized pieces of a string (fuel-driven by length). -/
def chunksOfGo (w : Nat) : Nat → List Char → List (List Char)
  | _, [] => []
  | 0, _ => []
  | fuel+1, p => p.take w :: chunksOfGo w fuel (p.drop w)

/-- A string cut into successive pieces of exactly `w` characters (the
last piece possibly shorter). -/
def chunksOf (w : Nat) (p : List Char) : List (List Char) :=
  chunksOfGo w p.length p

/-- The cursor discipline of a layout plan: each entry starts where the
previous entry's y plus its measured height plus its spacing-after ends. -/
def chainedFrom (y : Nat) : List BEntry → Prop
  | [] => True
  | e :: es => e.y = y ∧ chainedFrom (y + e.h + e.s) es

/-- Where the cursor ends after walking a list of plan entries. -/
def chainEnd (y : Nat) (es : List BEntry) : Nat :=
  es.foldl (fun a e => a + e.h + e.s) y

/-- A chunk that is entirely whitespace. -/
def IsSpaces (c : List Char) : Prop := ∀ ch ∈ c, isSpaceChar ch = true

/-- A word chunk: nonempty, fits the budget, and free of whitespace and
hyphens (the shape of every word chunk under the `C4` hypotheses). -/
def IsWordChk (w : Nat) (c : List Char) : Prop :=
  c ≠ [] ∧ c.length ≤ w ∧ ∀ ch ∈ c, isSpaceChar ch = false ∧ ch ≠ '-'

/-- Invariant carried through `_wrap_chunks` for the no-content-loss
proof: every chunk is whitespace or a fitting hyphen-free word, chunks
are nonempty, and no two word chunks are adjacent. -/
def OkChunks (w : Nat) (cs : List (List Char)) : Prop :=
  (∀ c ∈ cs, IsSpaces c ∨ IsWordChk w c) ∧
    (∀ c ∈ cs, c ≠ []) ∧
    cs.Chain' (fun a b => isBlank a = true ∨ isBlank b = true)

/-- The cursor advance a single input line causes in the measuring loop
(independent of the cursor position). -/
def lineAdv (F : Fonts) (w : Nat) (l : List Char) : Nat :=
  if isHeadingLine l then F.cityF.hBB (headingName l) + paragraphSpacing
  else paraHeight F (pyWrap w l) +
    (if (pyStrip l).isEmpty then paragraphSpacing else 0)

/-- The cursor advance one city text block causes in the measuring loop. -/
def blockAdv (F : Fonts) (w : Nat) (tb : List Char) : Nat :=
  ((pySplitNl tb).map (lineAdv F w)).sum + cityBlockSpacing

/-- The observable content of a draw call: position, text and font. -/
def projC (c : Cmd) : Nat × List Char × FTag := (c.y, c.txt, c.tag)

/-- The observable content of a planned draw: position, text and font. -/
def projD (d : Drawn) : Nat × List Char × FTag := (d.y, d.txt, d.tag)

/-- A fixed font handle used to exhibit concrete instances. -/
def constFont : FontH := ⟨fun _ => 10, fun _ => 100, fun _ => 430⟩

/-- A filesystem with no font files: every load falls back. -/
def constEnv : FsEnv := ⟨fun _ => false, fun _ _ => none, fun _ => constFont⟩

/-- A fixed resolved font set used to exhibit concrete instances. -/
def constFonts : Fonts := ⟨constFont, constFont, constFont, constFont⟩

/-! ## Theorems -/

/-! ### C10: `get_wind_direction` is total and in range -/

/-- **C10.**  For every numeric wind-direction input (negative and ≥ 360
included), the index `round((deg % 360) / 22.5) % 16` lies in `0..15`, so
`get_wind_direction` never raises an out-of-range error and returns one of
the sixteen direction names. -/
theorem C10_wind_direction_total (deg : ℚ) :
    0 ≤ windIdx deg ∧ windIdx deg < 16 ∧
      ∃ name, get_wind_direction deg = some name ∧ name ∈ windDirections := by
  have h0 : 0 ≤ windIdx deg := by
    unfold windIdx
    exact Int.emod_nonneg _ (by norm_num)
  have h1 : windIdx deg < 16 := by
    unfold windIdx
    exact Int.emod_lt_of_pos _ (by norm_num)
  refine ⟨h0, h1, ?_⟩
  have hlen : windDirections.length = 16 := rfl
  have hidx : (windIdx deg).toNat < windDirections.length := by
    rw [hlen]; omega
  refine ⟨windDirections.get ⟨(windIdx deg).toNat, hidx⟩, ?_, List.get_mem _ _ _⟩
  unfold get_wind_direction
  exact List.get?_eq_get hidx

/-! ### C3: the wrapping character budget formula -/

/-- **C3.**  For every positive measured pangram width, the character
budget equals
`max ⌊(canvas_width - 2·padding_x) / (pangram_width / 43) · 0.95⌋ 50`:
the average glyph width is the pangram measurement divided by its 43
characters, the budget is the floored scaled quotient, floored at a
minimum of 50. -/
theorem C3_wrap_budget_formula (L : ℚ) (hL : 0 < L) :
    wrapWidthChars L =
      max (Int.floor (((1200 : ℚ) - 2 * 50) / (L / 43) * (95 / 100))) 50 := by
  have hpangN : pangram.length = 43 := rfl
  simp only [wrapWidthChars, pyInt]
  have hx : ((canvasW : ℚ) - 2 * (paddingX : ℚ)) / (L / (pangram.length : ℚ)) * (95 / 100) =
      ((1200 : ℚ) - 2 * 50) / (L / 43) * (95 / 100) := by
    rw [hpangN]
    norm_num [canvasW, paddingX]
  rw [hx]
  have hpos : (0 : ℚ) ≤ ((1200 : ℚ) - 2 * 50) / (L / 43) * (95 / 100) := by
    positivity
  rw [if_neg (not_lt.mpr hpos)]

/-- Witness for C3 at a concrete pangram measurement of 430 px. -/
theorem C3_wrap_budget_formula_witness :
    (0 : ℚ) < 430 ∧
      wrapWidthChars 430 =
        max (Int.floor (((1200 : ℚ) - 2 * 50) / ((430 : ℚ) / 43) * (95 / 100))) 50 :=
  ⟨by norm_num, C3_wrap_budget_formula 430 (by norm_num)⟩

/-! ### C9: font resolution never fails the run -/

/-- One step of the candidate characterization for `tryPaths`. -/
theorem tryPaths_spec (env : FsEnv) (size : ℚ) (ps : List String) :
    (∃ pre p rest f, ps = pre ++ p :: rest ∧
        (∀ q ∈ pre, env.pathExists q = false ∨ env.loadFont q size = none) ∧
        env.pathExists p = true ∧ env.loadFont p size = some f ∧
        tryPaths env size ps = some f) ∨
      ((∀ p ∈ ps, env.pathExists p = false ∨ env.loadFont p size = none) ∧
        tryPaths env size ps = none) := by
  induction ps with
  | nil => exact Or.inr ⟨by simp, rfl⟩
  | cons p ps ih =>
    by_cases hex : env.pathExists p
    · cases hld : env.loadFont p size with
      | some f =>
        refine Or.inl ⟨[], p, ps, f, rfl, by simp, hex, hld, ?_⟩
        simp [tryPaths, hex, hld]
      | none =>
        have hstep : tryPaths env size (p :: ps) = tryPaths env size ps := by
          simp [tryPaths, hex, hld]
        rcases ih with ⟨pre, q, rest, f, hsplit, hpre, hq, hf, hres⟩ | ⟨hall, hres⟩
        · exact Or.inl ⟨p :: pre, q, rest, f, by simp [hsplit], by
            intro r hr
            rcases List.mem_cons.mp hr with h | h
            · exact h ▸ Or.inr hld
            · exact hpre r h, hq, hf, hstep ▸ hres⟩
        · refine Or.inr ⟨?_, hstep ▸ hres⟩
          intro r hr
          rcases List.mem_cons.mp hr with h | h
          · exact h ▸ Or.inr hld
          · exact hall r h
    · have hex' : env.pathExists p = false := by simpa using hex
      have hstep : tryPaths env size (p :: ps) = tryPaths env size ps := by
        simp [tryPaths, hex']
      rcases ih with ⟨pre, q, rest, f, hsplit, hpre, hq, hf, hres⟩ | ⟨hall, hres⟩
      · exact Or.inl ⟨p :: pre, q, rest, f, by simp [hsplit], by
          intro r hr
          rcases List.mem_cons.mp hr with h | h
          · exact h ▸ Or.inl hex'
          · exact hpre r h, hq, hf, hstep ▸ hres⟩
      · refine Or.inr ⟨?_, hstep ▸ hres⟩
        intro r hr
        rcases List.mem_cons.mp hr with h | h
        · exact h ▸ Or.inl hex'
        · exact hall r h

/-- **C9.**  Font resolution is total and never raises: for every
filesystem, role name and size, `load_system_font` either returns the
font loaded from the first candidate path that exists and loads
successfully, or — when no candidate succeeds — the default fallback font
at the requested size.  (Load failures are the caught `IOError`s; the
embedding returns a `FontH` in every case, so no exception escapes.) -/
theorem C9_font_resolution_never_fails (env : FsEnv) (name : String) (size : ℚ) :
    (∃ pre p rest f, fontPaths name = pre ++ p :: rest ∧
        (∀ q ∈ pre, env.pathExists q = false ∨ env.loadFont q size = none) ∧
        env.pathExists p = true ∧ env.loadFont p size = some f ∧
        load_system_font env name size = f) ∨
      ((∀ p ∈ fontPaths name, env.pathExists p = false ∨ env.loadFont p size = none) ∧
        load_system_font env name size = env.fallback size) := by
  rcases tryPaths_spec env size (fontPaths name) with
    ⟨pre, p, rest, f, hsplit, hpre, hp, hf, hres⟩ | ⟨hall, hres⟩
  · exact Or.inl ⟨pre, p, rest, f, hsplit, hpre, hp, hf, by
      unfold load_system_font; rw [hres]⟩
  · exact Or.inr ⟨hall, by unfold load_system_font; rw [hres]⟩

/-! ### C5: determinism of the full pipeline -/

/-- **C5.**  Running measure+render twice on the same formatted text
blocks with the same available fonts yields byte-identical encoded
output: the embedding shows the image content is a pure function of the
text blocks and the font environment, so any fixed encoder (PIL's PNG
writer modelled as a function of the drawn content) produces identical
bytes on both runs. -/
theorem C5_determinism (enc : ImageOut → List Nat) (env₁ env₂ : FsEnv)
    (ts₁ ts₂ : List (List Char)) (henv : env₁ = env₂) (hts : ts₁ = ts₂) :
    enc (generate_weather_image env₁ ts₁) = enc (generate_weather_image env₂ ts₂) := by
  rw [henv, hts]

/-- Witness for C5 on a concrete environment and document. -/
theorem C5_determinism_witness :
    constEnv = constEnv ∧
      (fun _ : ImageOut => ([] : List Nat)) (generate_weather_image constEnv [['h', 'i']]) =
        (fun _ : ImageOut => ([] : List Nat)) (generate_weather_image constEnv [['h', 'i']]) :=
  ⟨rfl, C5_determinism (fun _ => []) constEnv constEnv [['h', 'i']] [['h', 'i']] rfl rfl⟩

/-! ### C6: empty paragraph lines -/

/-- **C6.**  An empty-string paragraph line wraps to zero lines, draws
nothing, and moves the vertical cursor by exactly one `paragraph_spacing`
in the measure pass and in the render pass alike. -/
theorem C6_empty_line_spacing_only (F : Fonts) (w y : Nat) (hw : 50 ≤ w) :
    pyWrap w [] = [] ∧
      measureLine F w y [] = (y + paragraphSpacing, [], ⟨y, 0, paragraphSpacing⟩) ∧
      renderLine F w y [] = (y + paragraphSpacing, []) :=
  ⟨rfl, rfl, rfl⟩

/-- Witness for C6 at the minimal budget the code can produce. -/
theorem C6_empty_line_spacing_only_witness :
    50 ≤ 50 ∧
      (pyWrap 50 [] = [] ∧
        measureLine constFonts 50 7 [] = (7 + paragraphSpacing, [], ⟨7, 0, paragraphSpacing⟩) ∧
        renderLine constFonts 50 7 [] = (7 + paragraphSpacing, [])) :=
  ⟨le_refl 50, C6_empty_line_spacing_only constFonts 50 7 (le_refl 50)⟩

/-! ### Shared lemmas about the textwrap embedding -/

theorem wrapLoopGo_nil (w fuel : Nat) (acc : List (List Char)) :
    wrapLoopGo w fuel acc [] = acc.reverse := by
  cases fuel <;> simp [wrapLoopGo]

theorem chunkSplitGo_done (s : List Char) (fuel i : Nat) (h : s.length ≤ i) :
    chunkSplitGo s fuel i = [] := by
  cases fuel with
  | zero => rfl
  | succ fuel => simp [chunkSplitGo, h]

theorem expandTabsGo_id (p : List Char)
    (h : ∀ c ∈ p, c ≠ '\t' ∧ c ≠ '\n' ∧ c ≠ '\r') :
    ∀ col, expandTabsGo col p = p := by
  induction p with
  | nil => intro col; rfl
  | cons c cs ih =>
    intro col
    obtain ⟨h1, h2, h3⟩ := h c (List.mem_cons_self c cs)
    have hcs := fun d hd => h d (List.mem_cons_of_mem c hd)
    simp [expandTabsGo, h1, h2, h3, ih hcs]

theorem mapSpace_id (p : List Char)
    (h : ∀ c ∈ p, isSpaceChar c = true → c = ' ') :
    p.map (fun c => if isSpaceChar c then ' ' else c) = p := by
  induction p with
  | nil => rfl
  | cons c cs ih =>
    have hc := h c (List.mem_cons_self c cs)
    have hcs := fun d hd hsp => h d (List.mem_cons_of_mem c hd) hsp
    by_cases hs : isSpaceChar c = true
    · simp [hs, hc hs, ih hcs]
    · simp only [Bool.not_eq_true] at hs
      simp [hs, ih hcs]

theorem mungeWhitespace_id (p : List Char)
    (h : ∀ c ∈ p, isSpaceChar c = true → c = ' ') :
    mungeWhitespace p = p := by
  unfold mungeWhitespace
  have htab : ∀ c ∈ p, c ≠ '\t' ∧ c ≠ '\n' ∧ c ≠ '\r' := by
    intro c hc
    refine ⟨?_, ?_, ?_⟩ <;> rintro rfl <;> simpa [isSpaceChar] using h _ hc
  rw [expandTabsGo_id p htab]
  exact mapSpace_id p h

theorem hyphAt_false (s : List Char) (i : Nat) (h : ∀ c ∈ s, c ≠ '-') :
    hyphAt s i = false := by
  unfold hyphAt tst
  cases hg : s.get? i with
  | none => rfl
  | some c =>
    have : c ∈ s := List.get?_mem hg
    simp [h c this]

theorem spaceAt_false (s : List Char) (i : Nat) (h : ∀ c ∈ s, isSpaceChar c = false) :
    spaceAt s i = false := by
  unfold spaceAt tst
  cases hg : s.get? i with
  | none => rfl
  | some c =>
    have : c ∈ s := List.get?_mem hg
    simp [h c this]

theorem hyphenRunLen_zero (s : List Char) (i : Nat) (h : ∀ c ∈ s, c ≠ '-') :
    hyphenRunLen s i = 0 := by
  unfold hyphenRunLen
  cases hd : s.drop i with
  | nil => simp
  | cons c cs =>
    have hc : c ∈ s := by
      have : c ∈ s.drop i := by rw [hd]; exact List.mem_cons_self c cs
      exact List.mem_of_mem_drop this
    simp [List.takeWhile, h c hc]

theorem rfindHyphen_none (s : List Char) (stop : Nat) (h : ∀ c ∈ s, c ≠ '-') :
    rfindHyphen s stop = none := by
  unfold rfindHyphen
  have : (List.range stop).filter (fun i => hyphAt s i) = [] := by
    rw [List.filter_eq_nil]
    intro i _
    simp [hyphAt_false s i h]
  rw [this]
  rfl

theorem isBlank_eq_false (p : List Char) (c : Char) (hc : c ∈ p)
    (hs : isSpaceChar c = false) : isBlank p = false := by
  unfold isBlank
  rw [Bool.eq_false_iff]
  intro hall
  have := List.all_eq_true.mp hall c hc
  rw [hs] at this
  exact Bool.false_ne_true this

theorem wordEndGo_end (s : List Char)
    (hsp : ∀ c ∈ s, isSpaceChar c = false) (hhy : ∀ c ∈ s, c ≠ '-') :
    ∀ fuel q, q ≤ s.length → s.length ≤ fuel + q → wordEndGo s fuel q = s.length := by
  intro fuel
  induction fuel with
  | zero =>
    intro q h1 h2
    have : s.length = q := le_antisymm (by simpa using h2) h1
    simp [wordEndGo, this]
  | succ fuel ih =>
    intro q h1 h2
    by_cases hq : s.length ≤ q
    · simp [wordEndGo, hq]
    · have hA : condA s q = false := by
        unfold condA
        rw [hyphAt_false s q hhy]
        rfl
      have hB : condB s q = false := by
        unfold condB
        rw [spaceAt_false s q hsp]
        simp [hq]
      have hC : condC s q = false := by
        unfold condC
        rw [hyphenRunLen_zero s q hhy]
        simp
      rw [wordEndGo, if_neg hq, hA, hB, hC]
      simp only [Bool.false_eq_true, if_false]
      exact ih (q + 1) (by omega) (by omega)

theorem chunkSplit_single (p : List Char) (hne : p ≠ [])
    (hsp : ∀ c ∈ p, isSpaceChar c = false) (hhy : ∀ c ∈ p, c ≠ '-') :
    chunkSplit p = [p] := by
  have hlen : 1 ≤ p.length := List.length_pos.mpr hne
  unfold chunkSplit
  have hfuel : p.length + 1 = (p.length) + 1 := rfl
  rw [chunkSplitGo]
  have h0 : ¬ (p.length ≤ 0) := by omega
  rw [if_neg h0]
  have hsp0 : spaceAt p 0 = false := spaceAt_false p 0 hsp
  rw [hsp0]
  simp only [Bool.false_eq_true, if_false]
  have hdash : (decide (1 ≤ 0) && wordAt p (0-1) && decide (2 ≤ hyphenRunLen p 0) &&
      wordAt p (0 + hyphenRunLen p 0)) = false := by
    simp
  rw [hdash]
  simp only [Bool.false_eq_true, if_false]
  have hq : wordEndGo p (p.length + 1) (0 + 1) = p.length :=
    wordEndGo_end p hsp hhy (p.length + 1) 1 hlen (by omega)
  rw [hq]
  have hslice : sliceStr p 0 p.length = p := by
    simp [sliceStr]
  rw [hslice, chunkSplitGo_done p p.length p.length (le_refl _)]

theorem chunksOfGo_fuel (w : Nat) (hw : 1 ≤ w) :
    ∀ f₁ f₂ p, p.length ≤ f₁ → p.length ≤ f₂ →
      chunksOfGo w f₁ p = chunksOfGo w f₂ p := by
  intro f₁
  induction f₁ with
  | zero =>
    intro f₂ p h1 _
    have : p = [] := List.length_eq_zero.mp (by omega)
    subst this
    cases f₂ <;> rfl
  | succ f₁ ih =>
    intro f₂ p h1 h2
    cases p with
    | nil => cases f₂ <;> rfl
    | cons c cs =>
      cases f₂ with
      | zero => simp at h2
      | succ f₂ =>
        simp only [List.length_cons] at h1 h2
        simp only [chunksOfGo]
        congr 1
        exact ih f₂ ((c :: cs).drop w)
          (by simp only [List.length_drop, List.length_cons]; omega)
          (by simp only [List.length_drop, List.length_cons]; omega)

theorem chunksOfGo_flatten (w : Nat) (hw : 1 ≤ w) :
    ∀ fuel p, p.length ≤ fuel → (chunksOfGo w fuel p).flatten = p := by
  intro fuel
  induction fuel with
  | zero =>
    intro p h
    have : p = [] := List.length_eq_zero.mp (by omega)
    subst this
    rfl
  | succ fuel ih =>
    intro p h
    cases p with
    | nil => rfl
    | cons c cs =>
      simp only [List.length_cons] at h
      simp only [chunksOfGo, List.flatten_cons]
      rw [ih ((c :: cs).drop w)
        (by simp only [List.length_drop, List.length_cons]; omega)]
      exact List.take_append_drop w (c :: cs)

theorem chunksOfGo_ne_nil (w fuel : Nat) (p : List Char) (hp : p ≠ [])
    (hf : 1 ≤ fuel) : chunksOfGo w fuel p ≠ [] := by
  cases fuel with
  | zero => omega
  | succ fuel =>
    cases p with
    | nil => exact absurd rfl hp
    | cons c cs => simp [chunksOfGo]

theorem chunksOfGo_bound (w : Nat) :
    ∀ fuel p, ∀ l ∈ chunksOfGo w fuel p, l.length ≤ w := by
  intro fuel
  induction fuel with
  | zero =>
    intro p l hl
    cases p <;> simp [chunksOfGo] at hl
  | succ fuel ih =>
    intro p l hl
    cases p with
    | nil => simp [chunksOfGo] at hl
    | cons c cs =>
      simp only [chunksOfGo, List.mem_cons] at hl
      rcases hl with rfl | hl
      · simpa using List.length_take_le w (c :: cs)
      · exact ih _ l hl

/-- The `_wrap_chunks` loop on a single over-long hyphen-free space-free
chunk: the chunk is cut into `w`-sized pieces. -/
theorem wrapLoop_single_long (w : Nat) (hw : 1 ≤ w) :
    ∀ fuel p acc, p ≠ [] → (∀ c ∈ p, isSpaceChar c = false) →
      (∀ c ∈ p, c ≠ '-') → msr [p] ≤ fuel →
      wrapLoopGo w fuel acc [p] = acc.reverse ++ chunksOf w p := by
  intro fuel
  induction fuel with
  | zero =>
    intro p acc hp _ _ hfuel
    simp [msr] at hfuel
  | succ fuel ih =>
    intro p acc hp hsp hhy hfuel
    obtain ⟨c, cs, rfl⟩ : ∃ c cs, p = c :: cs := by
      cases p with
      | nil => exact absurd rfl hp
      | cons c cs => exact ⟨c, cs, rfl⟩
    have hcp : c ∈ c :: cs := List.mem_cons_self c cs
    have hblank : isBlank (c :: cs) = false := isBlank_eq_false _ c hcp (hsp c hcp)
    by_cases hle : cs.length + 1 ≤ w
    · have hstep : wrapStep w (!acc.isEmpty) [c :: cs] = (some (c :: cs), []) := by
        simp [wrapStep, dropLeadBlank, fillLine, takeFits, dropTrailingBlank, hblank, hle]
      rw [wrapLoopGo]
      simp only [List.isEmpty_cons, Bool.false_eq_true, if_false]
      rw [hstep]
      show wrapLoopGo w fuel ((c :: cs) :: acc) [] = _
      rw [wrapLoopGo_nil]
      have hle2 : (c :: cs).length ≤ w := by simpa using hle
      have hchunks : chunksOf w (c :: cs) = [c :: cs] := by
        unfold chunksOf
        show (c :: cs).take w :: chunksOfGo w cs.length ((c :: cs).drop w) = _
        rw [List.take_of_length_le hle2, List.drop_eq_nil_of_le hle2]
        cases cs <;> rfl
      rw [hchunks]
      simp
    · have hlt : w < cs.length + 1 := by omega
      have hw1 : ¬ w < 1 := by omega
      have hrf : ∀ stop, rfindHyphen (c :: cs) stop = none :=
        fun stop => rfindHyphen_none _ stop hhy
      have hhl : handleLongWord w 0 (c :: cs) =
          ((c :: cs).take w, (c :: cs).drop w) := by
        simp [handleLongWord, hrf, hw1, hlt]
      have hbtake : isBlank ((c :: cs).take w) = false := by
        obtain ⟨k, rfl⟩ : ∃ k, w = k + 1 := ⟨w - 1, by omega⟩
        exact isBlank_eq_false _ c (by
          rw [List.take_succ_cons]; exact List.mem_cons_self _ _) (hsp c hcp)
      have hstep : wrapStep w (!acc.isEmpty) [c :: cs] =
          (some ((c :: cs).take w), [(c :: cs).drop w]) := by
        simp [wrapStep, dropLeadBlank, fillLine, takeFits, hle, hlt, hhl,
          dropTrailingBlank, hbtake, hblank]
      rw [wrapLoopGo]
      simp only [List.isEmpty_cons, Bool.false_eq_true, if_false]
      rw [hstep]
      show wrapLoopGo w fuel (((c :: cs).take w) :: acc) [(c :: cs).drop w] = _
      have hdne : (c :: cs).drop w ≠ [] := by
        intro hcon
        have := congrArg List.length hcon
        simp only [List.length_drop, List.length_cons, List.length_nil] at this
        omega
      have hdsp : ∀ d ∈ (c :: cs).drop w, isSpaceChar d = false :=
        fun d hd => hsp d (List.drop_subset w _ hd)
      have hdhy : ∀ d ∈ (c :: cs).drop w, d ≠ '-' :=
        fun d hd => hhy d (List.drop_subset w _ hd)
      have hdfuel : msr [(c :: cs).drop w] ≤ fuel := by
        simp only [msr, List.map, List.sum_cons, List.sum_nil, List.length_drop,
          List.length_cons, List.length_nil] at hfuel ⊢
        omega
      rw [ih _ _ hdne hdsp hdhy hdfuel]
      have hchunks : chunksOf w (c :: cs) =
          (c :: cs).take w :: chunksOf w ((c :: cs).drop w) := by
        unfold chunksOf
        show (c :: cs).take w :: chunksOfGo w cs.length ((c :: cs).drop w) = _
        congr 1
        refine chunksOfGo_fuel w hw cs.length ((c :: cs).drop w).length _ ?_ (le_refl _)
        simp only [List.length_drop, List.length_cons]
        omega
      rw [hchunks]
      simp

/-! ### C2: a single long word is broken mid-word -/

/-- **C2 counterexample.**  A 51-character hyphen-free word at budget 50
(the minimum budget the code produces) is NOT kept whole on one line:
`textwrap.wrap` with its default `break_long_words=True` cuts it. -/
theorem C2_counterexample_long_word_is_cut :
    pyWrap 50 (List.replicate 51 'a') ≠ [List.replicate 51 'a'] := by
  decide

/-- **C2 (amended).**  A single word (no whitespace, no hyphens) longer
than the character budget is broken mid-word: the wrapper returns the
word cut into successive budget-sized pieces — at least two lines, each
at most the budget, whose concatenation is the original word. -/
theorem C2_amended_long_word_chunked (w : Nat) (p : List Char) (hw : 1 ≤ w)
    (hlen : w < p.length) (hsp : ∀ c ∈ p, isSpaceChar c = false)
    (hhy : ∀ c ∈ p, c ≠ '-') :
    pyWrap w p = chunksOf w p ∧ 2 ≤ (pyWrap w p).length ∧
      (pyWrap w p).flatten = p ∧ ∀ l ∈ pyWrap w p, l.length ≤ w := by
  have hne : p ≠ [] := by
    intro hcon
    rw [hcon] at hlen
    simp at hlen
  have hmunge : mungeWhitespace p = p :=
    mungeWhitespace_id p (by intro c hc hs; rw [hsp c hc] at hs; exact absurd hs (by simp))
  have hchunks : chunkSplit (mungeWhitespace p) = [p] := by
    rw [hmunge]
    exact chunkSplit_single p hne hsp hhy
  have hmain : pyWrap w p = chunksOf w p := by
    unfold pyWrap
    rw [hchunks]
    exact wrapLoop_single_long w hw (msr [p]) p [] hne hsp hhy (le_refl _)
  refine ⟨hmain, ?_, ?_, ?_⟩
  · rw [hmain]
    obtain ⟨c, cs, rfl⟩ : ∃ c cs, p = c :: cs := by
      cases p with
      | nil => exact absurd rfl hne
      | cons c cs => exact ⟨c, cs, rfl⟩
    simp only [List.length_cons] at hlen
    unfold chunksOf
    show 2 ≤ ((c :: cs).take w :: chunksOfGo w cs.length ((c :: cs).drop w)).length
    have hdne : (c :: cs).drop w ≠ [] := by
      intro hcon
      have := congrArg List.length hcon
      simp only [List.length_drop, List.length_cons, List.length_nil] at this
      omega
    have hne2 := chunksOfGo_ne_nil w cs.length ((c :: cs).drop w) hdne (by omega)
    have hpos : 1 ≤ (chunksOfGo w cs.length ((c :: cs).drop w)).length :=
      List.length_pos.mpr hne2
    simp only [List.length_cons]
    omega
  · rw [hmain]
    exact chunksOfGo_flatten w hw p.length p (le_refl _)
  · rw [hmain]
    exact fun l hl => chunksOfGo_bound w p.length p l hl

/-- Witness for the amended C2 at budget 50 on a 51-character word. -/
theorem C2_amended_long_word_chunked_witness :
    (1 ≤ 50 ∧ 50 < (List.replicate 51 'a').length ∧
        (∀ c ∈ List.replicate 51 'a', isSpaceChar c = false) ∧
        (∀ c ∈ List.replicate 51 'a', c ≠ '-')) ∧
      (pyWrap 50 (List.replicate 51 'a') = chunksOf 50 (List.replicate 51 'a') ∧
        2 ≤ (pyWrap 50 (List.replicate 51 'a')).length ∧
        (pyWrap 50 (List.replicate 51 'a')).flatten = List.replicate 51 'a' ∧
        ∀ l ∈ pyWrap 50 (List.replicate 51 'a'), l.length ≤ 50) :=
  ⟨⟨by decide, by decide, by decide, by decide⟩,
    C2_amended_long_word_chunked 50 (List.replicate 51 'a') (by decide) (by decide)
      (by decide) (by decide)⟩

/-! ### C1: the render pass replays exactly the measured layout -/

theorem paraHeight_shift (F : Fonts) :
    ∀ ws a, ws.foldl (fun acc t => acc + F.bodyF.hBB t + lineSpacing) a =
      a + paraHeight F ws := by
  intro ws
  induction ws with
  | nil => intro a; simp [paraHeight]
  | cons t ts ih =>
    intro a
    simp only [List.foldl_cons, paraHeight] at ih ⊢
    rw [ih (a + F.bodyF.hBB t + lineSpacing), ih (0 + F.bodyF.hBB t + lineSpacing)]
    omega

theorem paraHeight_cons (F : Fonts) (t : List Char) (ts : List (List Char)) :
    paraHeight F (t :: ts) = F.bodyF.hBB t + lineSpacing + paraHeight F ts := by
  show (t :: ts).foldl (fun acc u => acc + F.bodyF.hBB u + lineSpacing) 0 = _
  rw [List.foldl_cons, paraHeight_shift F ts (0 + F.bodyF.hBB t + lineSpacing)]
  omega

theorem renderParaGo_fst (F : Fonts) :
    ∀ ws y, (renderParaGo F y ws).1 = y + paraHeight F ws := by
  intro ws
  induction ws with
  | nil => intro y; simp [renderParaGo, paraHeight]
  | cons t ts ih =>
    intro y
    simp only [renderParaGo]
    rw [ih (y + F.bodyF.hBB t + lineSpacing), paraHeight_cons]
    omega

theorem renderParaGo_proj (F : Fonts) :
    ∀ ws y, (renderParaGo F y ws).2.map projC = (paraDrawnGo F y ws).map projD := by
  intro ws
  induction ws with
  | nil => intro y; rfl
  | cons t ts ih =>
    intro y
    simp only [renderParaGo, paraDrawnGo, List.map_cons]
    rw [ih (y + F.bodyF.hBB t + lineSpacing)]
    rfl

theorem renderLine_fst (F : Fonts) (w y : Nat) (l : List Char) :
    (renderLine F w y l).1 = (measureLine F w y l).1 := by
  by_cases hh : isHeadingLine l
  · simp [renderLine, measureLine, hh]
  · simp only [renderLine, measureLine, hh, Bool.false_eq_true, if_false]
    rw [renderParaGo_fst F (pyWrap w l) y]

theorem renderLine_proj (F : Fonts) (w y : Nat) (l : List Char) :
    (renderLine F w y l).2.map projC = (measureLine F w y l).2.1.map projD := by
  by_cases hh : isHeadingLine l
  · simp [renderLine, measureLine, hh, projC, projD]
  · simp only [renderLine, measureLine, hh, Bool.false_eq_true, if_false]
    exact renderParaGo_proj F (pyWrap w l) y

theorem renderLines_agree (F : Fonts) (w : Nat) :
    ∀ ls y, (renderLines F w y ls).1 = (measureLines F w y ls).1 ∧
      (renderLines F w y ls).2.map projC = (measureLines F w y ls).2.1.map projD := by
  intro ls
  induction ls with
  | nil => intro y; exact ⟨rfl, rfl⟩
  | cons l ls ih =>
    intro y
    simp only [renderLines, measureLines]
    obtain ⟨ih1, ih2⟩ := ih (measureLine F w y l).1
    rw [renderLine_fst F w y l]
    constructor
    · exact ih1
    · rw [List.map_append, List.map_append, renderLine_proj F w y l, ih2]

theorem renderBlocks_agree (F : Fonts) (w : Nat) :
    ∀ texts y, (renderBlocks F w y texts).1 = (measureBlocks F w y texts).1 ∧
      (renderBlocks F w y texts).2.map projC =
        (measureBlocks F w y texts).2.1.map projD := by
  intro texts
  induction texts with
  | nil => intro y; exact ⟨rfl, rfl⟩
  | cons tb tbs ih =>
    intro y
    simp only [renderBlocks, measureBlocks, renderCityBlock, measureCityBlock]
    obtain ⟨hl1, hl2⟩ := renderLines_agree F w (pySplitNl tb) y
    rw [hl1]
    obtain ⟨ih1, ih2⟩ := ih ((measureLines F w y (pySplitNl tb)).1 + cityBlockSpacing)
    constructor
    · exact ih1
    · rw [List.map_append, List.map_append, hl2, ih2]

/-- **C1.**  The render pass replays exactly the measured layout: although
the drawing loop calls `textwrap.wrap` again, it does so with the same
`wrap_width_chars` and draws with the same font handles, so the drawn
line sequence — each line's y position, text and font — is identical to
the measured plan, the cursor after the blocks coincides, and the footer
(the last drawn element) ends exactly `padding_y` above the planned
`canvas_height`. -/
theorem C1_render_replays_measured_plan (F : Fonts) (w : Nat) (texts : List (List Char)) :
    (renderBlocks F w (startY F) texts).2.map projC =
        (measureDrawn F w texts).map projD ∧
      (renderBlocks F w (startY F) texts).1 = (measureBlocks F w (startY F) texts).1 ∧
      (renderDoc F w texts).2 =
        titleCmd F :: (renderBlocks F w (startY F) texts).2 ++
          [footerCmd F (renderBlocks F w (startY F) texts).1] ∧
      (footerCmd F (renderBlocks F w (startY F) texts).1).y +
          F.footerF.hBB footerText + paddingY = measureHeight F w texts := by
  obtain ⟨h1, h2⟩ := renderBlocks_agree F w texts (startY F)
  refine ⟨h2, h1, rfl, ?_⟩
  simp only [footerCmd, measureHeight, measureCursorAfterFooter]
  rw [h1]

/-! ### C7: the LayoutPlan position invariant -/

theorem chainEnd_cons (y : Nat) (e : BEntry) (es : List BEntry) :
    chainEnd y (e :: es) = chainEnd (y + e.h + e.s) es := rfl

theorem chainEnd_append (y : Nat) (es₁ es₂ : List BEntry) :
    chainEnd y (es₁ ++ es₂) = chainEnd (chainEnd y es₁) es₂ := by
  simp [chainEnd, List.foldl_append]

theorem chainedFrom_append (es₁ : List BEntry) :
    ∀ es₂ y, chainedFrom y es₁ → chainedFrom (chainEnd y es₁) es₂ →
      chainedFrom y (es₁ ++ es₂) := by
  induction es₁ with
  | nil => intro es₂ y _ h2; exact h2
  | cons e es ih =>
    intro es₂ y h1 h2
    obtain ⟨hey, hch⟩ := h1
    exact ⟨hey, ih es₂ (y + e.h + e.s) hch h2⟩

theorem measureLine_entry (F : Fonts) (w y : Nat) (l : List Char) :
    (measureLine F w y l).2.2.y = y ∧
      (measureLine F w y l).1 =
        y + (measureLine F w y l).2.2.h + (measureLine F w y l).2.2.s := by
  by_cases hh : isHeadingLine l <;> simp [measureLine, hh]

theorem measureLines_chained (F : Fonts) (w : Nat) :
    ∀ ls y, chainedFrom y (measureLines F w y ls).2.2 ∧
      (measureLines F w y ls).1 = chainEnd y (measureLines F w y ls).2.2 := by
  intro ls
  induction ls with
  | nil => intro y; exact ⟨trivial, rfl⟩
  | cons l ls ih =>
    intro y
    obtain ⟨he, hfst⟩ := measureLine_entry F w y l
    obtain ⟨ih1, ih2⟩ := ih (measureLine F w y l).1
    simp only [measureLines]
    constructor
    · exact ⟨he, by rw [← hfst]; exact ih1⟩
    · rw [chainEnd_cons, ← hfst]
      exact ih2

theorem bumpLastS_chained (k : Nat) :
    ∀ es y, chainedFrom y es → chainedFrom y (bumpLastS k es) := by
  intro es
  induction es with
  | nil => intro y h; exact h
  | cons e es ih =>
    intro y h
    obtain ⟨hey, hch⟩ := h
    cases es with
    | nil => exact ⟨hey, trivial⟩
    | cons e2 es2 => exact ⟨hey, ih (y + e.h + e.s) hch⟩

theorem bumpLastS_chainEnd (k : Nat) :
    ∀ es y, es ≠ [] → chainEnd y (bumpLastS k es) = chainEnd y es + k := by
  intro es
  induction es with
  | nil => intro y h; exact absurd rfl h
  | cons e es ih =>
    intro y _
    cases es with
    | nil =>
      show chainEnd y [⟨e.y, e.h, e.s + k⟩] = chainEnd y [e] + k
      simp [chainEnd]
      omega
    | cons e2 es2 =>
      show chainEnd y (e :: bumpLastS k (e2 :: es2)) = chainEnd y (e :: e2 :: es2) + k
      rw [chainEnd_cons, chainEnd_cons, ih _ (by simp)]

theorem splitNlGo_ne_nil (acc s : List Char) : splitNlGo acc s ≠ [] := by
  induction s generalizing acc with
  | nil => simp [splitNlGo]
  | cons c cs ih =>
    by_cases hc : c = '\n'
    · simp [splitNlGo, hc]
    · simpa [splitNlGo, hc] using ih (c :: acc)

theorem pySplitNl_ne_nil (s : List Char) : pySplitNl s ≠ [] :=
  splitNlGo_ne_nil [] s

theorem measureLines_entries_ne_nil (F : Fonts) (w y : Nat) (ls : List (List Char))
    (h : ls ≠ []) : (measureLines F w y ls).2.2 ≠ [] := by
  cases ls with
  | nil => exact absurd rfl h
  | cons l ls => simp [measureLines]

theorem measureCityBlock_chained (F : Fonts) (w y : Nat) (tb : List Char) :
    chainedFrom y (measureCityBlock F w y tb).2.2 ∧
      (measureCityBlock F w y tb).1 = chainEnd y (measureCityBlock F w y tb).2.2 := by
  obtain ⟨h1, h2⟩ := measureLines_chained F w (pySplitNl tb) y
  have hne := measureLines_entries_ne_nil F w y (pySplitNl tb) (pySplitNl_ne_nil tb)
  simp only [measureCityBlock]
  constructor
  · exact bumpLastS_chained cityBlockSpacing _ y h1
  · rw [bumpLastS_chainEnd cityBlockSpacing _ y hne, ← h2]

theorem measureBlocks_chained (F : Fonts) (w : Nat) :
    ∀ texts y, chainedFrom y (measureBlocks F w y texts).2.2 ∧
      (measureBlocks F w y texts).1 = chainEnd y (measureBlocks F w y texts).2.2 := by
  intro texts
  induction texts with
  | nil => intro y; exact ⟨trivial, rfl⟩
  | cons tb tbs ih =>
    intro y
    obtain ⟨hc1, hc2⟩ := measureCityBlock_chained F w y tb
    obtain ⟨ih1, ih2⟩ := ih (measureCityBlock F w y tb).1
    simp only [measureBlocks]
    constructor
    · exact chainedFrom_append _ _ y hc1 (by rw [← hc2]; exact ih1)
    · rw [chainEnd_append, ← hc2]
      exact ih2

theorem measurePlan_chained (F : Fonts) (w : Nat) (texts : List (List Char)) :
    chainedFrom paddingY (measurePlan F w texts) := by
  obtain ⟨h1, _⟩ := measureBlocks_chained F w texts (startY F)
  exact ⟨rfl, h1⟩

theorem chainedFrom_get? (es : List BEntry) :
    ∀ y, chainedFrom y es → ∀ i e₁ e₂, es.get? i = some e₁ →
      es.get? (i+1) = some e₂ → e₂.y = e₁.y + e₁.h + e₁.s := by
  induction es with
  | nil => intro y _ i e₁ e₂ h1 _; simp at h1
  | cons e es ih =>
    intro y hch i e₁ e₂ h1 h2
    obtain ⟨hey, hch'⟩ := hch
    cases i with
    | zero =>
      simp only [List.get?] at h1 h2
      cases es with
      | nil => simp at h2
      | cons e2 es2 =>
        obtain ⟨hey2, _⟩ := hch'
        simp only [List.get?] at h2
        have he1 : e = e₁ := by injection h1
        have he2 : e2 = e₂ := by injection h2
        rw [← he1, ← he2, hey2, hey]
    | succ i =>
      exact ih (y + e.h + e.s) hch' i e₁ e₂ h1 h2

/-- **C7.**  The measured layout plan obeys the cursor discipline: every
entry's y position equals the previous entry's y plus its measured height
plus its spacing-after; the plan starts with the title entry at the top
padding; and the canvas height is the final cursor (the chain of all
entries, plus the footer padding and footer height) plus the bottom
padding. -/
theorem C7_layout_plan_invariant (F : Fonts) (w : Nat) (texts : List (List Char))
    (i : Nat) (e₁ e₂ : BEntry)
    (h₁ : (measurePlan F w texts).get? i = some e₁)
    (h₂ : (measurePlan F w texts).get? (i+1) = some e₂) :
    e₂.y = e₁.y + e₁.h + e₁.s ∧
      (measurePlan F w texts).get? 0 =
        some ⟨paddingY, F.titleF.hBB titleText, paddingY⟩ ∧
      measureCursorAfterFooter F w texts =
        chainEnd paddingY (measurePlan F w texts) + footerPaddingY +
          F.footerF.hBB footerText ∧
      measureHeight F w texts = measureCursorAfterFooter F w texts + paddingY := by
  refine ⟨chainedFrom_get? _ paddingY (measurePlan_chained F w texts) i e₁ e₂ h₁ h₂,
    rfl, ?_, rfl⟩
  obtain ⟨_, hend⟩ := measureBlocks_chained F w texts (startY F)
  simp only [measureCursorAfterFooter, measurePlan]
  rw [chainEnd_cons, hend]
  rfl

/-- Witness for C7 on a one-city document with a heading and one
paragraph line. -/
theorem C7_layout_plan_invariant_witness :
    ((measurePlan constFonts 50 [('*' :: '*' :: 'A' :: '*' :: '*' :: '\n' :: ['h', 'i'])]).get? 1 =
        some ⟨70, 10, 18⟩ ∧
      (measurePlan constFonts 50 [('*' :: '*' :: 'A' :: '*' :: '*' :: '\n' :: ['h', 'i'])]).get? 2 =
        some ⟨98, 15, 10⟩) ∧
      ((98 : Nat) = 70 + 10 + 18 ∧
        (measurePlan constFonts 50 [('*' :: '*' :: 'A' :: '*' :: '*' :: '\n' :: ['h', 'i'])]).get? 0 =
          some ⟨paddingY, constFonts.titleF.hBB titleText, paddingY⟩ ∧
        measureCursorAfterFooter constFonts 50 [('*' :: '*' :: 'A' :: '*' :: '*' :: '\n' :: ['h', 'i'])] =
          chainEnd paddingY (measurePlan constFonts 50 [('*' :: '*' :: 'A' :: '*' :: '*' :: '\n' :: ['h', 'i'])]) +
            footerPaddingY + constFonts.footerF.hBB footerText ∧
        measureHeight constFonts 50 [('*' :: '*' :: 'A' :: '*' :: '*' :: '\n' :: ['h', 'i'])] =
          measureCursorAfterFooter constFonts 50 [('*' :: '*' :: 'A' :: '*' :: '*' :: '\n' :: ['h', 'i'])] +
            paddingY) :=
  ⟨⟨by decide, by decide⟩,
    C7_layout_plan_invariant constFonts 50 _ 1 ⟨70, 10, 18⟩ ⟨98, 15, 10⟩
      (by decide) (by decide)⟩

/-! ### General facts about one `_wrap_chunks` iteration -/

theorem solidChars_append (a b : List Char) :
    solidChars (a ++ b) = solidChars a ++ solidChars b := by
  simp [solidChars]

theorem isBlank_solid_nil (t : List Char) (h : isBlank t = true) :
    solidChars t = [] := by
  rw [solidChars, List.filter_eq_nil_iff]
  intro c hc
  have := List.all_eq_true.mp h c hc
  simp [this]

theorem msr_append (a b : List (List Char)) : msr (a ++ b) = msr a + msr b := by
  simp [msr]
  omega

theorem msr_cons (c : List Char) (cs : List (List Char)) :
    msr (c :: cs) = c.length + 1 + msr cs := by
  simp [msr]
  omega

theorem msr_pos (cs : List (List Char)) (h : cs ≠ []) : 1 ≤ msr cs := by
  cases cs with
  | nil => exact absurd rfl h
  | cons c cs => rw [msr_cons]; omega

theorem msr_eq_zero (cs : List (List Char)) (h : msr cs = 0) : cs = [] := by
  cases cs with
  | nil => rfl
  | cons c cs => rw [msr_cons] at h; omega

theorem takeFits_append (w : Nat) (cs : List (List Char)) :
    ∀ curLen, (takeFits w curLen cs).1 ++ (takeFits w curLen cs).2.2 = cs := by
  induction cs with
  | nil => intro curLen; rfl
  | cons c cs ih =>
    intro curLen
    simp only [takeFits]
    by_cases h : curLen + c.length ≤ w
    · rw [if_pos h]
      simp only [List.cons_append]
      rw [ih (curLen + c.length)]
    · rw [if_neg h]
      rfl

theorem takeFits_nil_curLen (w : Nat) (cs : List (List Char)) (curLen : Nat)
    (h : (takeFits w curLen cs).1 = []) : (takeFits w curLen cs).2.1 = curLen := by
  cases cs with
  | nil => rfl
  | cons c cs =>
    simp only [takeFits] at h ⊢
    by_cases hf : curLen + c.length ≤ w
    · rw [if_pos hf] at h; simp at h
    · rw [if_neg hf]

theorem takeFits_nil_not_fit (w curLen : Nat) (c : List Char) (cs : List (List Char))
    (h : (takeFits w curLen (c :: cs)).1 = []) : ¬ (curLen + c.length ≤ w) := by
  intro hfit
  simp [takeFits, hfit] at h

theorem handleLongWord_append (w curLen : Nat) (c : List Char) :
    (handleLongWord w curLen c).1 ++ (handleLongWord w curLen c).2 = c := by
  simp only [handleLongWord]
  exact List.take_append_drop _ c

theorem handleLongWord_cut_pos (w : Nat) (c : List Char) :
    ∃ cut, 1 ≤ cut ∧ handleLongWord w 0 c = (c.take cut, c.drop cut) := by
  have hsl : 1 ≤ (if w < 1 then 1 else w - 0) := by
    by_cases h : w < 1
    · rw [if_pos h]
    · rw [if_neg h]; omega
  unfold handleLongWord
  refine ⟨_, ?_, rfl⟩
  generalize hg : (if w < 1 then 1 else w - 0) = sl at hsl ⊢
  split
  · cases hrf : rfindHyphen c sl with
    | some hidx =>
      show 1 ≤ if (decide (0 < hidx) && !((c.take hidx).all (· = '-'))) = true then
          hidx + 1 else sl
      split
      · omega
      · exact hsl
    | none => exact hsl
  · exact hsl

theorem handleLongWord_rem_lt (w : Nat) (c : List Char) (hc : c ≠ []) :
    (handleLongWord w 0 c).2.length < c.length := by
  have hlen : 1 ≤ c.length := List.length_pos.mpr hc
  obtain ⟨cut, hcut, heq⟩ := handleLongWord_cut_pos w c
  rw [heq]
  simp only [List.length_drop]
  omega

theorem fillLine_flatten (w : Nat) (ds : List (List Char)) :
    (fillLine w ds).1.flatten ++ (fillLine w ds).2.flatten = ds.flatten := by
  unfold fillLine
  rcases htf : takeFits w 0 ds with ⟨tk, len, rest⟩
  have hds : tk ++ rest = ds := by
    have := takeFits_append w ds 0
    rw [htf] at this
    exact this
  cases rest with
  | nil =>
    show tk.flatten ++ List.flatten [] = ds.flatten
    rw [← hds]
    simp
  | cons c cs =>
    dsimp only
    by_cases hbig : w < c.length
    · rw [if_pos hbig]
      rcases hhl : handleLongWord w len c with ⟨piece, rem⟩
      have hpr : piece ++ rem = c := by
        have := handleLongWord_append w len c
        rw [hhl] at this
        exact this
      show (tk ++ [piece]).flatten ++ (rem :: cs).flatten = ds.flatten
      rw [← hds, ← hpr]
      simp
    · rw [if_neg hbig]
      show tk.flatten ++ (c :: cs).flatten = ds.flatten
      rw [← hds]
      simp

theorem fillLine_msr (w : Nat) (ds : List (List Char)) (h : ds ≠ []) :
    msr (fillLine w ds).2 < msr ds := by
  unfold fillLine
  rcases htf : takeFits w 0 ds with ⟨tk, len, rest⟩
  have hds : tk ++ rest = ds := by
    have := takeFits_append w ds 0
    rw [htf] at this
    exact this
  cases rest with
  | nil =>
    show msr [] < msr ds
    have h1 := msr_pos ds h
    have h0 : msr [] = 0 := rfl
    omega
  | cons c cs =>
    dsimp only
    by_cases hbig : w < c.length
    · rw [if_pos hbig]
      rcases hhl : handleLongWord w len c with ⟨piece, rem⟩
      show msr (rem :: cs) < msr ds
      have hremle : rem.length ≤ c.length := by
        have := congrArg List.length (handleLongWord_append w len c)
        rw [hhl] at this
        simp only [List.length_append] at this
        omega
      by_cases htk : tk = []
      · have hlen0 : len = 0 := by
          have h1 := takeFits_nil_curLen w ds 0 (by rw [htf, htk])
          rw [htf] at h1
          exact h1
        have hcne : c ≠ [] := by
          intro hcon
          rw [hcon] at hbig
          simp at hbig
        have hrem : rem.length < c.length := by
          have hlt := handleLongWord_rem_lt w c hcne
          rw [hlen0] at hhl
          rw [hhl] at hlt
          exact hlt
        rw [← hds, htk, List.nil_append, msr_cons, msr_cons]
        omega
      · have htkpos := msr_pos tk htk
        rw [← hds, msr_append, msr_cons, msr_cons]
        omega
    · rw [if_neg hbig]
      show msr (c :: cs) < msr ds
      have htk : tk ≠ [] := by
        intro hcon
        subst hcon
        rw [List.nil_append] at hds
        subst hds
        have := takeFits_nil_not_fit w 0 c cs (by rw [htf])
        omega
      have htkpos := msr_pos tk htk
      rw [← hds, msr_append]
      omega

theorem dropTrailingBlank_solid (cl : List (List Char)) :
    solidChars (dropTrailingBlank cl).flatten = solidChars cl.flatten := by
  unfold dropTrailingBlank
  cases hg : cl.getLast? with
  | none => rfl
  | some t =>
    dsimp only
    have hne : cl ≠ [] := by
      intro hcon
      rw [hcon] at hg
      simp at hg
    by_cases hb : isBlank t = true
    · rw [if_pos hb]
      have hlast : cl.getLast hne = t := by
        have h2 := List.getLast?_eq_getLast cl hne
        rw [hg] at h2
        injection h2.symm with h3
      have hcl : cl.dropLast ++ [cl.getLast hne] = cl := List.dropLast_append_getLast hne
      conv_rhs => rw [← hcl]
      rw [hlast, List.flatten_append, solidChars_append]
      have hts : solidChars t = [] := isBlank_solid_nil t hb
      simp [hts]
    · rw [if_neg hb]

/-! ### The wrap loop never loses non-whitespace characters -/

theorem dropLeadBlank_solid (st : Bool) (cs : List (List Char)) :
    solidChars (dropLeadBlank st cs).flatten = solidChars cs.flatten := by
  unfold dropLeadBlank
  cases cs with
  | nil => rfl
  | cons c cs' =>
    dsimp only
    by_cases h : (st && isBlank c) = true
    · rw [if_pos h]
      have hb : isBlank c = true := by
        simp only [Bool.and_eq_true] at h
        exact h.2
      rw [List.flatten_cons, solidChars_append, isBlank_solid_nil c hb]
      rfl
    · rw [if_neg h]

theorem wrapStep_solid (w : Nat) (st : Bool) (cs : List (List Char)) :
    solidChars ((wrapStep w st cs).1.getD []) ++
        solidChars (wrapStep w st cs).2.flatten =
      solidChars cs.flatten := by
  have h2 : (wrapStep w st cs).2 = (fillLine w (dropLeadBlank st cs)).2 := rfl
  have h1 : (wrapStep w st cs).1 =
      (if (dropTrailingBlank (fillLine w (dropLeadBlank st cs)).1).isEmpty then none
       else some (dropTrailingBlank (fillLine w (dropLeadBlank st cs)).1).flatten) := rfl
  rw [h1, h2]
  have hline : solidChars
      ((if (dropTrailingBlank (fillLine w (dropLeadBlank st cs)).1).isEmpty then
          (none : Option (List Char))
        else some (dropTrailingBlank (fillLine w (dropLeadBlank st cs)).1).flatten).getD []) =
      solidChars (fillLine w (dropLeadBlank st cs)).1.flatten := by
    by_cases he : (dropTrailingBlank (fillLine w (dropLeadBlank st cs)).1).isEmpty = true
    · rw [if_pos he]
      have hnil : dropTrailingBlank (fillLine w (dropLeadBlank st cs)).1 = [] :=
        List.isEmpty_iff.mp he
      have hdt := dropTrailingBlank_solid (fillLine w (dropLeadBlank st cs)).1
      rw [hnil] at hdt
      simpa using hdt
    · rw [if_neg he]
      simpa using dropTrailingBlank_solid (fillLine w (dropLeadBlank st cs)).1
  rw [hline, ← solidChars_append, fillLine_flatten, dropLeadBlank_solid]

theorem wrapStep_msr (w : Nat) (st : Bool) (cs : List (List Char)) (h : cs ≠ []) :
    msr (wrapStep w st cs).2 < msr cs := by
  have h2 : (wrapStep w st cs).2 = (fillLine w (dropLeadBlank st cs)).2 := rfl
  rw [h2]
  cases cs with
  | nil => exact absurd rfl h
  | cons c cs' =>
    show msr (fillLine w (dropLeadBlank st (c :: cs'))).2 < msr (c :: cs')
    unfold dropLeadBlank
    dsimp only
    by_cases hd : (st && isBlank c) = true
    · rw [if_pos hd]
      by_cases hcs : cs' = []
      · subst hcs
        show msr (fillLine w []).2 < msr [c]
        have he : (fillLine w []).2 = [] := rfl
        have h0 : msr [] = 0 := rfl
        rw [he, h0, msr_cons]
        omega
      · have hf := fillLine_msr w cs' hcs
        rw [msr_cons]
        omega
    · rw [if_neg hd]
      exact fillLine_msr w (c :: cs') (by simp)

theorem wrapLoopGo_solid (w : Nat) :
    ∀ fuel acc cs, msr cs ≤ fuel →
      solidChars (wrapLoopGo w fuel acc cs).flatten =
        solidChars acc.reverse.flatten ++ solidChars cs.flatten := by
  intro fuel
  induction fuel with
  | zero =>
    intro acc cs h
    have hnil : cs = [] := msr_eq_zero cs (by omega)
    subst hnil
    simp [wrapLoopGo, solidChars]
  | succ fuel ih =>
    intro acc cs h
    by_cases hcs : cs = []
    · subst hcs
      simp [wrapLoopGo, solidChars]
    · rw [wrapLoopGo, if_neg (by simp [hcs])]
      have hmsr := wrapStep_msr w (!acc.isEmpty) cs hcs
      have hsolid := wrapStep_solid w (!acc.isEmpty) cs
      rcases hst : wrapStep w (!acc.isEmpty) cs with ⟨lopt, rest⟩
      rw [hst] at hmsr hsolid
      dsimp only at hmsr hsolid
      cases lopt with
      | some l =>
        show solidChars (wrapLoopGo w fuel (l :: acc) rest).flatten = _
        rw [ih (l :: acc) rest (by omega)]
        have hx : solidChars l ++ solidChars rest.flatten = solidChars cs.flatten := by
          simpa using hsolid
        rw [List.reverse_cons, List.flatten_append, solidChars_append,
          List.append_assoc]
        have hy : solidChars [l].flatten = solidChars l := by simp
        rw [hy, hx]
      | none =>
        show solidChars (wrapLoopGo w fuel acc rest).flatten = _
        rw [ih acc rest (by omega)]
        have hx : solidChars rest.flatten = solidChars cs.flatten := by
          simpa using hsolid
        rw [hx]

theorem wordEndGo_ge (s : List Char) :
    ∀ fuel q, q ≤ wordEndGo s fuel q ∨ wordEndGo s fuel q = s.length := by
  intro fuel
  induction fuel with
  | zero => intro q; exact Or.inl (le_refl q)
  | succ fuel ih =>
    intro q
    rw [wordEndGo]
    by_cases h1 : s.length ≤ q
    · rw [if_pos h1]; exact Or.inr rfl
    · rw [if_neg h1]
      by_cases hA : condA s q = true
      · rw [if_pos hA]; exact Or.inl (by omega)
      · rw [if_neg hA]
        by_cases hB : condB s q = true
        · rw [if_pos hB]; exact Or.inl (le_refl q)
        · rw [if_neg hB]
          by_cases hC : condC s q = true
          · rw [if_pos hC]; exact Or.inl (le_refl q)
          · rw [if_neg hC]
            rcases ih (q + 1) with h | h
            · exact Or.inl (by omega)
            · exact Or.inr h

theorem slice_append_drop (s : List Char) (i j : Nat) (hij : i ≤ j) :
    sliceStr s i j ++ s.drop j = s.drop i := by
  unfold sliceStr
  have hdj : s.drop j = (s.drop i).drop (j - i) := by
    rw [List.drop_drop]
    congr 1
    omega
  rw [hdj]
  exact List.take_append_drop _ _

theorem tst_true_drop (s : List Char) (i : Nat) (p : Char → Bool)
    (h : tst s i p = true) :
    ∃ c rest, s.drop i = c :: rest ∧ p c = true := by
  unfold tst at h
  cases hg : s.get? i with
  | none => rw [hg] at h; exact absurd h (by simp)
  | some c =>
    rw [hg] at h
    have hi : i < s.length := by
      by_contra hc
      rw [List.get?_eq_none.mpr (by omega)] at hg
      exact absurd hg (by simp)
    refine ⟨c, s.drop (i + 1), ?_, h⟩
    rw [List.drop_eq_get_cons hi]
    congr 1
    have h2 := List.get?_eq_get hi (l := s)
    rw [hg] at h2
    injection h2 with h3
    exact h3.symm

theorem spaceRun_pos (s : List Char) (i : Nat) (h : spaceAt s i = true) :
    1 ≤ ((s.drop i).takeWhile isSpaceChar).length := by
  obtain ⟨c, rest, hd, hp⟩ := tst_true_drop s i isSpaceChar h
  rw [hd, List.takeWhile_cons_of_pos hp]
  simp

theorem chunkSplitGo_flatten (s : List Char) :
    ∀ fuel i, s.length ≤ fuel + i → (chunkSplitGo s fuel i).flatten = s.drop i := by
  intro fuel
  induction fuel with
  | zero =>
    intro i h
    show List.flatten [] = s.drop i
    rw [List.drop_eq_nil_of_le (by omega)]
    rfl
  | succ fuel ih =>
    intro i h
    rw [chunkSplitGo]
    by_cases hi : s.length ≤ i
    · rw [if_pos hi, List.drop_eq_nil_of_le hi]
      rfl
    · rw [if_neg hi]
      by_cases hsp : spaceAt s i = true
      · rw [if_pos hsp]
        have hrun := spaceRun_pos s i hsp
        simp only [List.flatten_cons]
        rw [ih _ (by omega)]
        exact slice_append_drop s i _ (by omega)
      · rw [if_neg hsp]
        by_cases hem : (decide (1 ≤ i) && wordAt s (i-1) &&
            decide (2 ≤ hyphenRunLen s i) && wordAt s (i + hyphenRunLen s i)) = true
        · rw [if_pos hem]
          have hrun : 2 ≤ hyphenRunLen s i := by
            simp only [Bool.and_eq_true, decide_eq_true_eq] at hem
            exact hem.1.2
          simp only [List.flatten_cons]
          rw [ih _ (by omega)]
          exact slice_append_drop s i _ (by omega)
        · rw [if_neg hem]
          have hq : i + 1 ≤ wordEndGo s (s.length + 1) (i + 1) ∨
              wordEndGo s (s.length + 1) (i + 1) = s.length :=
            wordEndGo_ge s (s.length + 1) (i + 1)
          have hq1 : i ≤ wordEndGo s (s.length + 1) (i + 1) := by
            rcases hq with h' | h' <;> omega
          simp only [List.flatten_cons]
          rw [ih _ (by rcases hq with h' | h' <;> omega)]
          exact slice_append_drop s i _ hq1

theorem solidChars_replicate_space (k : Nat) :
    solidChars (List.replicate k ' ') = [] := by
  rw [solidChars, List.filter_eq_nil_iff]
  intro c hc
  have := List.eq_of_mem_replicate hc
  subst this
  simp [isSpaceChar]

theorem expandTabsGo_solid (s : List Char) :
    ∀ col, solidChars (expandTabsGo col s) = solidChars s := by
  induction s with
  | nil => intro col; rfl
  | cons c cs ih =>
    intro col
    rw [expandTabsGo]
    by_cases ht : c = '\t'
    · rw [if_pos ht]
      rw [solidChars_append, solidChars_replicate_space, ih, List.nil_append]
      subst ht
      show solidChars cs = solidChars ('\t' :: cs)
      simp [solidChars, List.filter_cons, isSpaceChar]
    · rw [if_neg ht]
      by_cases hn : (c = '\n' || c = '\r') = true
      · rw [if_pos hn]
        simp only [solidChars, List.filter_cons]
        have hcs := ih 0
        simp only [solidChars] at hcs
        rw [hcs]
      · rw [if_neg hn]
        simp only [solidChars, List.filter_cons]
        have hcs := ih (col + 1)
        simp only [solidChars] at hcs
        rw [hcs]

theorem mapSpace_solid (s : List Char) :
    solidChars (s.map (fun c => if isSpaceChar c then ' ' else c)) = solidChars s := by
  induction s with
  | nil => rfl
  | cons c cs ih =>
    have ih' : List.filter (fun c => !isSpaceChar c)
        (cs.map (fun c => if isSpaceChar c then ' ' else c)) =
        List.filter (fun c => !isSpaceChar c) cs := by
      simpa [solidChars] using ih
    show solidChars ((if isSpaceChar c then ' ' else c) ::
      cs.map (fun c => if isSpaceChar c then ' ' else c)) = solidChars (c :: cs)
    by_cases h : isSpaceChar c = true
    · rw [if_pos h]
      simp only [solidChars, List.filter_cons]
      have hsp : (!isSpaceChar ' ') = false := by simp [isSpaceChar]
      have hsc : (!isSpaceChar c) = false := by simp [h]
      rw [hsp, hsc]
      simp only [Bool.false_eq_true, if_false]
      exact ih'
    · have h' : isSpaceChar c = false := by simpa using h
      rw [if_neg h]
      simp only [solidChars, List.filter_cons, h', Bool.not_false, if_true]
      rw [ih']

theorem mungeWhitespace_solid (s : List Char) :
    solidChars (mungeWhitespace s) = solidChars s := by
  unfold mungeWhitespace
  rw [mapSpace_solid, expandTabsGo_solid]

theorem pyWrap_solid (w : Nat) (s : List Char) :
    solidChars (pyWrap w s).flatten = solidChars s := by
  unfold pyWrap
  rw [wrapLoopGo_solid w _ [] _ (le_refl _)]
  have hch : (chunkSplit (mungeWhitespace s)).flatten = mungeWhitespace s := by
    unfold chunkSplit
    have := chunkSplitGo_flatten (mungeWhitespace s) ((mungeWhitespace s).length + 1) 0
      (by omega)
    simpa using this
  rw [hch, mungeWhitespace_solid]
  rfl

theorem pyWrap_ne_nil (w : Nat) (s : List Char) (h : solidChars s ≠ []) :
    pyWrap w s ≠ [] := by
  intro hcon
  have hps := pyWrap_solid w s
  rw [hcon] at hps
  exact h (by simpa using hps.symm)

/-! ### C8: height monotonicity -/

theorem measureLine_fst_adv (F : Fonts) (w y : Nat) (l : List Char) :
    (measureLine F w y l).1 = y + lineAdv F w l := by
  by_cases hh : isHeadingLine l <;>
    simp [measureLine, lineAdv, hh] <;> omega

theorem measureLines_fst_adv (F : Fonts) (w : Nat) :
    ∀ ls y, (measureLines F w y ls).1 = y + (ls.map (lineAdv F w)).sum := by
  intro ls
  induction ls with
  | nil => intro y; simp [measureLines]
  | cons l ls ih =>
    intro y
    simp only [measureLines, List.map_cons, List.sum_cons]
    rw [ih (measureLine F w y l).1, measureLine_fst_adv]
    omega

theorem measureCityBlock_fst_adv (F : Fonts) (w y : Nat) (tb : List Char) :
    (measureCityBlock F w y tb).1 = y + blockAdv F w tb := by
  simp only [measureCityBlock, blockAdv]
  rw [measureLines_fst_adv]
  omega

theorem measureBlocks_fst_adv (F : Fonts) (w : Nat) :
    ∀ texts y, (measureBlocks F w y texts).1 = y + (texts.map (blockAdv F w)).sum := by
  intro texts
  induction texts with
  | nil => intro y; simp [measureBlocks]
  | cons tb tbs ih =>
    intro y
    simp only [measureBlocks, List.map_cons, List.sum_cons]
    rw [ih (measureCityBlock F w y tb).1, measureCityBlock_fst_adv]
    omega

theorem measureHeight_sum (F : Fonts) (w : Nat) (texts : List (List Char)) :
    measureHeight F w texts =
      startY F + (texts.map (blockAdv F w)).sum + footerPaddingY +
        F.footerF.hBB footerText + paddingY := by
  simp only [measureHeight, measureCursorAfterFooter]
  rw [measureBlocks_fst_adv]

theorem splitNlGo_append (b : List Char) :
    ∀ a acc, splitNlGo acc (a ++ '\n' :: b) = splitNlGo acc a ++ pySplitNl b := by
  intro a
  induction a with
  | nil => intro acc; simp [splitNlGo, pySplitNl]
  | cons c a' ih =>
    intro acc
    by_cases hc : c = '\n'
    · subst hc
      have h1 : splitNlGo acc (('\n' :: a') ++ '\n' :: b) =
          acc.reverse :: splitNlGo [] (a' ++ '\n' :: b) := by
        rw [List.cons_append, splitNlGo, if_pos rfl]
      have h2 : splitNlGo acc ('\n' :: a') = acc.reverse :: splitNlGo [] a' := by
        rw [splitNlGo, if_pos rfl]
      rw [h1, h2, ih []]
      rfl
    · have h1 : splitNlGo acc ((c :: a') ++ '\n' :: b) =
          splitNlGo (c :: acc) (a' ++ '\n' :: b) := by
        rw [List.cons_append, splitNlGo, if_neg hc]
      have h2 : splitNlGo acc (c :: a') = splitNlGo (c :: acc) a' := by
        rw [splitNlGo, if_neg hc]
      rw [h1, h2, ih (c :: acc)]

theorem splitNlGo_no_newline (p : List Char) :
    ∀ acc, '\n' ∉ p → splitNlGo acc p = [acc.reverse ++ p] := by
  induction p with
  | nil => intro acc _; simp [splitNlGo]
  | cons c p' ih =>
    intro acc h
    have hc : c ≠ '\n' := fun hcon => h (by rw [hcon]; exact List.mem_cons_self _ _)
    rw [splitNlGo, if_neg hc, ih (c :: acc) (fun hm => h (List.mem_cons_of_mem c hm))]
    simp

theorem pySplitNl_append_line (tb p : List Char) (hnl : '\n' ∉ p) :
    pySplitNl (tb ++ '\n' :: p) = pySplitNl tb ++ [p] := by
  unfold pySplitNl
  rw [splitNlGo_append p tb []]
  unfold pySplitNl
  rw [splitNlGo_no_newline p [] hnl]
  rfl

theorem blockAdv_append_line (F : Fonts) (w : Nat) (tb p : List Char)
    (hnl : '\n' ∉ p) :
    blockAdv F w (tb ++ '\n' :: p) = blockAdv F w tb + lineAdv F w p := by
  simp only [blockAdv, pySplitNl_append_line tb p hnl, List.map_append,
    List.sum_append, List.map_cons, List.sum_cons, List.map_nil, List.sum_nil]
  omega

theorem strip_nonempty_solid (p : List Char) (h : (pyStrip p).isEmpty = false) :
    solidChars p ≠ [] := by
  intro hcon
  have hall : ∀ c ∈ p, isSpaceChar c = true := by
    intro c hc
    by_contra hns
    have hmem : c ∈ solidChars p := by
      rw [solidChars, List.mem_filter]
      exact ⟨hc, by simpa using hns⟩
    rw [hcon] at hmem
    exact absurd hmem (List.not_mem_nil c)
  have hdw : p.dropWhile isSpaceChar = [] := List.dropWhile_eq_nil_iff.mpr hall
  have : pyStrip p = [] := by
    unfold pyStrip
    rw [hdw]
    rfl
  rw [this] at h
  simp at h

theorem lineAdv_pos (F : Fonts) (w : Nat) (p : List Char)
    (hhead : isHeadingLine p = false) (hne : (pyStrip p).isEmpty = false) :
    1 ≤ lineAdv F w p := by
  unfold lineAdv
  rw [hhead]
  simp only [Bool.false_eq_true, if_false]
  have hw := pyWrap_ne_nil w p (strip_nonempty_solid p hne)
  obtain ⟨t, ts, hts⟩ : ∃ t ts, pyWrap w p = t :: ts := by
    cases hcase : pyWrap w p with
    | nil => exact absurd hcase hw
    | cons t ts => exact ⟨t, ts, rfl⟩
  rw [hts, paraHeight_cons]
  have : 1 ≤ lineSpacing := by simp [lineSpacing]
  omega

/-- **C8.**  Holding the fonts (hence all glyph metrics) fixed, appending
one more non-empty, non-heading paragraph line to any city text block
strictly increases the computed `canvas_height`. -/
theorem C8_height_strictly_monotone (F : Fonts) (w : Nat)
    (pre post : List (List Char)) (tb p : List Char)
    (hnl : '\n' ∉ p) (hhead : isHeadingLine p = false)
    (hne : (pyStrip p).isEmpty = false) :
    measureHeight F w (pre ++ tb :: post) <
      measureHeight F w (pre ++ (tb ++ '\n' :: p) :: post) := by
  rw [measureHeight_sum, measureHeight_sum]
  have hba := blockAdv_append_line F w tb p hnl
  have hpos := lineAdv_pos F w p hhead hne
  simp only [List.map_append, List.sum_append, List.map_cons, List.sum_cons, hba]
  omega

/-- Witness for C8: adding the paragraph "hi" to a one-block document. -/
theorem C8_height_strictly_monotone_witness :
    ('\n' ∉ ['h', 'i'] ∧ isHeadingLine ['h', 'i'] = false ∧
        (pyStrip ['h', 'i']).isEmpty = false) ∧
      measureHeight constFonts 50 [['A']] <
        measureHeight constFonts 50 [('A' :: '\n' :: ['h', 'i'])] :=
  ⟨⟨by decide, by decide, by decide⟩,
    C8_height_strictly_monotone constFonts 50 [] [] ['A'] ['h', 'i']
      (by decide) (by decide) (by decide)⟩

/-! ### C4: words of a paragraph through the wrapper -/

theorem pyWordsGo_nonspace (v : List Char) :
    ∀ acc t, (∀ c ∈ v, isSpaceChar c = false) →
      pyWordsGo acc (v ++ t) = pyWordsGo (v.reverse ++ acc) t := by
  induction v with
  | nil => intro acc t _; rfl
  | cons c v' ih =>
    intro acc t h
    have hc : isSpaceChar c = false := h c (List.mem_cons_self c v')
    show pyWordsGo acc (c :: (v' ++ t)) = _
    rw [pyWordsGo, if_neg (by simp [hc])]
    rw [ih (c :: acc) t (fun d hd => h d (List.mem_cons_of_mem c hd))]
    congr 1
    simp

theorem pyWords_space_cons (c : Char) (t : List Char) (h : isSpaceChar c = true) :
    pyWords (c :: t) = pyWords t := by
  show pyWordsGo [] (c :: t) = pyWordsGo [] t
  rw [pyWordsGo, if_pos h]
  rfl

theorem pyWords_spaces_append (b : List Char) :
    ∀ t, (∀ c ∈ b, isSpaceChar c = true) → pyWords (b ++ t) = pyWords t := by
  induction b with
  | nil => intro t _; rfl
  | cons c b' ih =>
    intro t h
    show pyWords (c :: (b' ++ t)) = pyWords t
    rw [pyWords_space_cons c _ (h c (List.mem_cons_self c b'))]
    exact ih t (fun d hd => h d (List.mem_cons_of_mem c hd))

theorem pyWords_word_append (v t : List Char) (hv : v ≠ [])
    (hns : ∀ c ∈ v, isSpaceChar c = false)
    (ht : t = [] ∨ ∃ c t', t = c :: t' ∧ isSpaceChar c = true) :
    pyWords (v ++ t) = v :: pyWords t := by
  show pyWordsGo [] (v ++ t) = v :: pyWords t
  rw [pyWordsGo_nonspace v [] t hns]
  rcases ht with rfl | ⟨c, t', rfl, hc⟩
  · rw [pyWordsGo, if_neg (by simp [hv])]
    simp [pyWords, pyWordsGo]
  · rw [pyWordsGo, if_pos hc, if_neg (by simp [hv])]
    rw [pyWords_space_cons c t' hc]
    simp [pyWords]

theorem pyWords_append_space_cons (a b : List Char) :
    pyWords (a ++ ' ' :: b) = pyWords a ++ pyWords b := by
  suffices h : ∀ acc, pyWordsGo acc (a ++ ' ' :: b) = pyWordsGo acc a ++ pyWords b by
    exact h []
  induction a with
  | nil =>
    intro acc
    have hspc : isSpaceChar ' ' = true := by simp [isSpaceChar]
    show pyWordsGo acc (' ' :: b) = pyWordsGo acc [] ++ pyWords b
    by_cases ha : acc.isEmpty = true
    · have h1 : pyWordsGo acc (' ' :: b) = pyWordsGo [] b := by
        conv_lhs => rw [pyWordsGo]
        rw [if_pos hspc, if_pos ha]
      have h2 : pyWordsGo acc [] = [] := by
        conv_lhs => rw [pyWordsGo]
        rw [if_pos ha]
      rw [h1, h2]
      rfl
    · have h1 : pyWordsGo acc (' ' :: b) = acc.reverse :: pyWordsGo [] b := by
        conv_lhs => rw [pyWordsGo]
        rw [if_pos hspc, if_neg ha]
      have h2 : pyWordsGo acc [] = [acc.reverse] := by
        conv_lhs => rw [pyWordsGo]
        rw [if_neg ha]
      rw [h1, h2]
      rfl
  | cons c a' ih =>
    intro acc
    show pyWordsGo acc (c :: (a' ++ ' ' :: b)) = pyWordsGo acc (c :: a') ++ pyWords b
    by_cases hc : isSpaceChar c = true
    · by_cases ha : acc.isEmpty = true
      · have h1 : pyWordsGo acc (c :: (a' ++ ' ' :: b)) =
            pyWordsGo [] (a' ++ ' ' :: b) := by
          conv_lhs => rw [pyWordsGo]
          rw [if_pos hc, if_pos ha]
        have h2 : pyWordsGo acc (c :: a') = pyWordsGo [] a' := by
          conv_lhs => rw [pyWordsGo]
          rw [if_pos hc, if_pos ha]
        rw [h1, h2, ih []]
      · have h1 : pyWordsGo acc (c :: (a' ++ ' ' :: b)) =
            acc.reverse :: pyWordsGo [] (a' ++ ' ' :: b) := by
          conv_lhs => rw [pyWordsGo]
          rw [if_pos hc, if_neg ha]
        have h2 : pyWordsGo acc (c :: a') = acc.reverse :: pyWordsGo [] a' := by
          conv_lhs => rw [pyWordsGo]
          rw [if_pos hc, if_neg ha]
        rw [h1, h2, ih []]
        rfl
    · have h1 : pyWordsGo acc (c :: (a' ++ ' ' :: b)) =
          pyWordsGo (c :: acc) (a' ++ ' ' :: b) := by
        conv_lhs => rw [pyWordsGo]
        rw [if_neg hc]
      have h2 : pyWordsGo acc (c :: a') = pyWordsGo (c :: acc) a' := by
        conv_lhs => rw [pyWordsGo]
        rw [if_neg hc]
      rw [h1, h2, ih (c :: acc)]

theorem pyWords_joinSpace_snoc (xs : List (List Char)) (l : List Char) :
    pyWords (joinSpace (xs ++ [l])) = pyWords (joinSpace xs) ++ pyWords l := by
  induction xs with
  | nil => rfl
  | cons x xs ih =>
    cases xs with
    | nil =>
      show pyWords (x ++ ' ' :: l) = pyWords (joinSpace [x]) ++ pyWords l
      rw [pyWords_append_space_cons]
      rfl
    | cons y ys =>
      show pyWords (x ++ ' ' :: joinSpace ((y :: ys) ++ [l])) =
        pyWords (x ++ ' ' :: joinSpace (y :: ys)) ++ pyWords l
      rw [pyWords_append_space_cons, pyWords_append_space_cons, ih,
        List.append_assoc]

/-- **C4 counterexample.**  No-content-loss fails as stated: a single
51-character word at budget 50 (attainable, since the budget is floored
at 50) is cut mid-word, so rejoining the wrapped lines with spaces gives
two words where the paragraph had one. -/
theorem C4_counterexample_long_word_altered :
    pyWords (joinSpace (pyWrap 50 (List.replicate 51 'a'))) ≠
      pyWords (List.replicate 51 'a') := by
  decide

theorem isBlank_iff_spaces (c : List Char) :
    isBlank c = true ↔ ∀ ch ∈ c, isSpaceChar ch = true := by
  unfold isBlank
  exact List.all_eq_true

theorem isBlank_false_of_word (c : List Char) (hne : c ≠ [])
    (hw : ∀ ch ∈ c, isSpaceChar ch = false) : isBlank c = false := by
  cases c with
  | nil => exact absurd rfl hne
  | cons d cs =>
    exact isBlank_eq_false _ d (List.mem_cons_self d cs)
      (hw d (List.mem_cons_self d cs))

theorem wordChunks_cons_blank (c : List Char) (l : List (List Char))
    (h : isBlank c = true) : wordChunks (c :: l) = wordChunks l := by
  simp [wordChunks, List.filter_cons, h]

theorem wordChunks_cons_word (c : List Char) (l : List (List Char))
    (h : isBlank c = false) : wordChunks (c :: l) = c :: wordChunks l := by
  simp [wordChunks, List.filter_cons, h]

theorem wordChunks_append (a b : List (List Char)) :
    wordChunks (a ++ b) = wordChunks a ++ wordChunks b := by
  simp [wordChunks]

theorem wordChunks_dropTrailing (cl : List (List Char)) :
    wordChunks (dropTrailingBlank cl) = wordChunks cl := by
  unfold dropTrailingBlank
  cases hg : cl.getLast? with
  | none => rfl
  | some t =>
    dsimp only
    have hne : cl ≠ [] := by
      intro hcon
      rw [hcon] at hg
      simp at hg
    by_cases hb : isBlank t = true
    · rw [if_pos hb]
      have hlast : cl.getLast hne = t := by
        have h2 := List.getLast?_eq_getLast cl hne
        rw [hg] at h2
        injection h2.symm with h3
      have hcl : cl.dropLast ++ [cl.getLast hne] = cl := List.dropLast_append_getLast hne
      conv_rhs => rw [← hcl]
      rw [hlast, wordChunks_append, wordChunks_cons_blank t [] hb]
      simp [wordChunks]
    · rw [if_neg hb]

theorem pyWords_flatten_alt :
    ∀ cl : List (List Char), (∀ c ∈ cl, c ≠ []) →
      (∀ c ∈ cl, isBlank c = true ∨ ∀ ch ∈ c, isSpaceChar ch = false) →
      List.Chain' (fun a b => isBlank a = true ∨ isBlank b = true) cl →
      pyWords cl.flatten = wordChunks cl := by
  intro cl
  induction cl with
  | nil => intro _ _ _; rfl
  | cons c cl' ih =>
    intro h1 h2 h3
    have hcm : c ∈ c :: cl' := List.mem_cons_self c cl'
    have h1' := fun d hd => h1 d (List.mem_cons_of_mem c hd)
    have h2' := fun d hd => h2 d (List.mem_cons_of_mem c hd)
    have h3' : List.Chain' (fun a b => isBlank a = true ∨ isBlank b = true) cl' :=
      h3.tail
    rcases h2 c hcm with hb | hw
    · rw [List.flatten_cons,
        pyWords_spaces_append c _ ((isBlank_iff_spaces c).mp hb),
        ih h1' h2' h3', wordChunks_cons_blank c cl' hb]
    · have hbf : isBlank c = false := isBlank_false_of_word c (h1 c hcm) hw
      rw [List.flatten_cons]
      have hcases : cl'.flatten = [] ∨
          ∃ d t', cl'.flatten = d :: t' ∧ isSpaceChar d = true := by
        cases cl' with
        | nil => exact Or.inl rfl
        | cons b bs =>
          have hrel : isBlank c = true ∨ isBlank b = true :=
            (List.chain'_cons.mp h3).1
          have hbb : isBlank b = true := by
            rcases hrel with h | h
            · rw [hbf] at h
              exact absurd h (by simp)
            · exact h
          obtain ⟨d, bt, rfl⟩ : ∃ d bt, b = d :: bt := by
            cases b with
            | nil =>
              exact absurd rfl (h1' _ (List.mem_cons_self _ bs))
            | cons d bt => exact ⟨d, bt, rfl⟩
          refine Or.inr ⟨d, bt ++ bs.flatten, by simp, ?_⟩
          exact (isBlank_iff_spaces _).mp hbb d (List.mem_cons_self d bt)
      rw [pyWords_word_append c cl'.flatten (h1 c hcm) hw hcases,
        ih h1' h2' h3', wordChunks_cons_word c cl' hbf]

theorem OkChunks_nil (w : Nat) : OkChunks w [] :=
  ⟨by simp, by simp, List.chain'_nil⟩

theorem OkChunks_append (w : Nat) (a b : List (List Char))
    (h : OkChunks w (a ++ b)) : OkChunks w a ∧ OkChunks w b := by
  obtain ⟨h1, h2, h3⟩ := h
  rw [List.chain'_append] at h3
  exact ⟨⟨fun c hc => h1 c (List.mem_append_left b hc),
      fun c hc => h2 c (List.mem_append_left b hc), h3.1⟩,
    ⟨fun c hc => h1 c (List.mem_append_right a hc),
      fun c hc => h2 c (List.mem_append_right a hc), h3.2.1⟩⟩

theorem dropTrailingBlank_pfx (cl : List (List Char)) :
    dropTrailingBlank cl <+: cl := by
  unfold dropTrailingBlank
  cases hg : cl.getLast? with
  | none => exact List.prefix_refl cl
  | some t =>
    dsimp only
    by_cases hb : isBlank t = true
    · rw [if_pos hb]
      have hne : cl ≠ [] := by
        intro hcon
        rw [hcon] at hg
        simp at hg
      exact ⟨[cl.getLast hne], List.dropLast_append_getLast hne⟩
    · rw [if_neg hb]

theorem OkChunks_of_prefix (w : Nat) (a b : List (List Char))
    (hp : a <+: b) (h : OkChunks w b) : OkChunks w a := by
  obtain ⟨t, rfl⟩ := hp
  exact (OkChunks_append w a t h).1

theorem rfindHyphen_lt (s : List Char) (stop hidx : Nat)
    (h : rfindHyphen s stop = some hidx) : hidx < stop := by
  unfold rfindHyphen at h
  have hx : hidx ∈ ((List.range stop).filter (fun i => hyphAt s i)).getLast? :=
    Option.mem_def.mpr h
  obtain ⟨hne2, heq⟩ := List.mem_getLast?_eq_getLast hx
  have hmem := List.getLast_mem hne2
  rw [← heq] at hmem
  have := List.mem_filter.mp hmem
  exact List.mem_range.mp this.1

theorem handleLongWord_anatomy (w len : Nat) (c : List Char) (hw : 1 ≤ w)
    (hbig : w < c.length) :
    ∃ cut, cut < c.length ∧ handleLongWord w len c = (c.take cut, c.drop cut) := by
  have hsl : (if w < 1 then 1 else w - len) ≤ w := by
    rw [if_neg (by omega)]
    omega
  unfold handleLongWord
  refine ⟨_, ?_, rfl⟩
  generalize hg : (if w < 1 then 1 else w - len) = sl at hsl ⊢
  split
  · cases hrf : rfindHyphen c sl with
    | some hidx =>
      have hidxlt : hidx < sl := rfindHyphen_lt c sl hidx hrf
      show (if (decide (0 < hidx) && !((c.take hidx).all (· = '-'))) = true then
          hidx + 1 else sl) < c.length
      split
      · omega
      · omega
    | none =>
      show sl < c.length
      omega
  · show sl < c.length
    omega

theorem dropLeadBlank_ok (w : Nat) (st : Bool) (cs : List (List Char))
    (h : OkChunks w cs) :
    OkChunks w (dropLeadBlank st cs) ∧
      wordChunks (dropLeadBlank st cs) = wordChunks cs := by
  unfold dropLeadBlank
  cases cs with
  | nil => exact ⟨h, rfl⟩
  | cons c cs' =>
    dsimp only
    by_cases hd : (st && isBlank c) = true
    · rw [if_pos hd]
      have hb : isBlank c = true := by
        simp only [Bool.and_eq_true] at hd
        exact hd.2
      exact ⟨(OkChunks_append w [c] cs' h).2, (wordChunks_cons_blank c cs' hb).symm⟩
    · rw [if_neg hd]
      exact ⟨h, rfl⟩

theorem wrapStep_fst_words (cl : List (List Char)) :
    ((if cl.isEmpty then (none : Option (List Char)) else some cl.flatten).elim
        [] pyWords) = pyWords cl.flatten := by
  by_cases he : cl.isEmpty = true
  · rw [if_pos he]
    have hnil : cl = [] := List.isEmpty_iff.mp he
    subst hnil
    rfl
  · rw [if_neg he]
    rfl

theorem fillLine_words (w : Nat) (hw : 1 ≤ w) (ds : List (List Char))
    (hok : OkChunks w ds) :
    OkChunks w (fillLine w ds).2 ∧
      pyWords (dropTrailingBlank (fillLine w ds).1).flatten ++
        wordChunks (fillLine w ds).2 = wordChunks ds := by
  unfold fillLine
  rcases htf : takeFits w 0 ds with ⟨tk, len, rest⟩
  have hds : tk ++ rest = ds := by
    have := takeFits_append w ds 0
    rw [htf] at this
    exact this
  have hok2 : OkChunks w (tk ++ rest) := by rw [hds]; exact hok
  have hoktk := (OkChunks_append w tk rest hok2).1
  have hokrest := (OkChunks_append w tk rest hok2).2
  have hlineW : ∀ cl : List (List Char), cl <+: tk →
      pyWords cl.flatten = wordChunks cl := by
    intro cl hp
    obtain ⟨ha, hb, hc⟩ := OkChunks_of_prefix w cl tk hp hoktk
    refine pyWords_flatten_alt cl hb ?_ hc
    intro c hcm
    rcases ha c hcm with hs | hwd
    · exact Or.inl ((isBlank_iff_spaces c).mpr hs)
    · exact Or.inr (fun ch hch => (hwd.2.2 ch hch).1)
  cases rest with
  | nil =>
    dsimp only
    refine ⟨OkChunks_nil w, ?_⟩
    rw [hlineW (dropTrailingBlank tk) (dropTrailingBlank_pfx tk),
      wordChunks_dropTrailing tk, ← hds]
    simp [wordChunks_append, wordChunks]
  | cons c cs₂ =>
    dsimp only
    by_cases hbig : w < c.length
    · rw [if_pos hbig]
      have hcmem : c ∈ ds := by
        rw [← hds]
        exact List.mem_append_right tk (List.mem_cons_self c cs₂)
      have hcblank : isBlank c = true := by
        rcases hok.1 c hcmem with hs | hwd
        · exact (isBlank_iff_spaces c).mpr hs
        · exfalso
          have := hwd.2.1
          omega
      have hcsp : ∀ ch ∈ c, isSpaceChar ch = true := (isBlank_iff_spaces c).mp hcblank
      obtain ⟨cut, hcutlt, hhl⟩ := handleLongWord_anatomy w len c hw hbig
      rw [hhl]
      dsimp only
      have hpiece_blank : isBlank (c.take cut) = true := by
        refine (isBlank_iff_spaces _).mpr ?_
        intro ch hch
        exact hcsp ch (List.take_subset cut c hch)
      have hrem_spaces : ∀ ch ∈ c.drop cut, isSpaceChar ch = true :=
        fun ch hch => hcsp ch (List.drop_subset cut c hch)
      have hrem_ne : c.drop cut ≠ [] := by
        intro hcon
        have := congrArg List.length hcon
        simp only [List.length_drop, List.length_nil] at this
        omega
      obtain ⟨r1, r2, r3⟩ := hokrest
      constructor
      · refine ⟨?_, ?_, ?_⟩
        · intro d hd
          rcases List.mem_cons.mp hd with rfl | hd'
          · exact Or.inl hrem_spaces
          · exact r1 d (List.mem_cons_of_mem c hd')
        · intro d hd
          rcases List.mem_cons.mp hd with rfl | hd'
          · exact hrem_ne
          · exact r2 d (List.mem_cons_of_mem c hd')
        · rw [List.chain'_cons']
          refine ⟨fun b _ => Or.inl ((isBlank_iff_spaces _).mpr hrem_spaces), r3.tail⟩
      · have hclW : dropTrailingBlank (tk ++ [c.take cut]) = tk := by
          unfold dropTrailingBlank
          rw [List.getLast?_concat]
          dsimp only
          rw [if_pos hpiece_blank, List.dropLast_concat]
        rw [hclW, hlineW tk (List.prefix_refl tk), ← hds, wordChunks_append,
          wordChunks_cons_blank c cs₂ hcblank,
          wordChunks_cons_blank (c.drop cut) cs₂
            ((isBlank_iff_spaces _).mpr hrem_spaces)]
    · rw [if_neg hbig]
      refine ⟨hokrest, ?_⟩
      rw [hlineW (dropTrailingBlank tk) (dropTrailingBlank_pfx tk),
        wordChunks_dropTrailing tk, ← hds, wordChunks_append]

theorem wrapStep_words (w : Nat) (hw : 1 ≤ w) (st : Bool) (cs : List (List Char))
    (hok : OkChunks w cs) :
    OkChunks w (wrapStep w st cs).2 ∧
      ((wrapStep w st cs).1.elim [] pyWords) ++ wordChunks (wrapStep w st cs).2 =
        wordChunks cs := by
  obtain ⟨hokds, hwc⟩ := dropLeadBlank_ok w st cs hok
  rw [← hwc]
  have h2 : (wrapStep w st cs).2 = (fillLine w (dropLeadBlank st cs)).2 := rfl
  have h1 : (wrapStep w st cs).1 =
      (if (dropTrailingBlank (fillLine w (dropLeadBlank st cs)).1).isEmpty then none
       else some (dropTrailingBlank (fillLine w (dropLeadBlank st cs)).1).flatten) := rfl
  rw [h1, h2, wrapStep_fst_words]
  revert hokds
  generalize (dropLeadBlank st cs) = ds
  intro hokds
  exact fillLine_words w hw ds hokds

theorem wrapLoopGo_words (w : Nat) (hw : 1 ≤ w) :
    ∀ fuel acc cs, msr cs ≤ fuel → OkChunks w cs →
      pyWords (joinSpace (wrapLoopGo w fuel acc cs)) =
        pyWords (joinSpace acc.reverse) ++ wordChunks cs := by
  intro fuel
  induction fuel with
  | zero =>
    intro acc cs h _
    have hnil : cs = [] := msr_eq_zero cs (by omega)
    subst hnil
    simp [wrapLoopGo, wordChunks]
  | succ fuel ih =>
    intro acc cs h hok
    by_cases hcs : cs = []
    · subst hcs
      simp [wrapLoopGo, wordChunks]
    · rw [wrapLoopGo, if_neg (by simp [hcs])]
      have hmsr := wrapStep_msr w (!acc.isEmpty) cs hcs
      obtain ⟨hok', hwords⟩ := wrapStep_words w hw (!acc.isEmpty) cs hok
      rcases hst : wrapStep w (!acc.isEmpty) cs with ⟨lopt, rest⟩
      rw [hst] at hmsr hok' hwords
      dsimp only at hmsr hok' hwords
      cases lopt with
      | some l =>
        show pyWords (joinSpace (wrapLoopGo w fuel (l :: acc) rest)) = _
        rw [ih (l :: acc) rest (by omega) hok']
        rw [List.reverse_cons, pyWords_joinSpace_snoc, List.append_assoc]
        simp only [Option.elim_some] at hwords
        rw [hwords]
      | none =>
        show pyWords (joinSpace (wrapLoopGo w fuel acc rest)) = _
        rw [ih acc rest (by omega) hok']
        simp only [Option.elim_none, List.nil_append] at hwords
        rw [hwords]

theorem take_len_takeWhile (p : Char → Bool) :
    ∀ l : List Char, l.take (l.takeWhile p).length = l.takeWhile p := by
  intro l
  induction l with
  | nil => rfl
  | cons c cs ih =>
    by_cases h : p c = true
    · rw [List.takeWhile_cons_of_pos h, List.length_cons, List.take_succ_cons, ih]
    · rw [List.takeWhile_cons_of_neg h]
      rfl

theorem drop_len_takeWhile (p : Char → Bool) :
    ∀ l : List Char, l.drop (l.takeWhile p).length = l.dropWhile p := by
  intro l
  induction l with
  | nil => rfl
  | cons c cs ih =>
    by_cases h : p c = true
    · rw [List.takeWhile_cons_of_pos h, List.dropWhile_cons_of_pos h,
        List.length_cons, List.drop_succ_cons, ih]
    · rw [List.takeWhile_cons_of_neg h, List.dropWhile_cons_of_neg h]
      rfl

theorem head_dropWhile_not (p : Char → Bool) (l : List Char) :
    l.dropWhile p = [] ∨
      ∃ c t', l.dropWhile p = c :: t' ∧ p c = false := by
  induction l with
  | nil => exact Or.inl rfl
  | cons c cs ih =>
    by_cases h : p c = true
    · rw [List.dropWhile_cons_of_pos h]
      exact ih
    · rw [List.dropWhile_cons_of_neg h]
      refine Or.inr ⟨c, cs, rfl, ?_⟩
      simp only [Bool.not_eq_true] at h
      exact h

theorem get_drop_cons (s : List Char) (q : Nat) (hq : q < s.length) :
    ∃ c, s.get? q = some c ∧ s.drop q = c :: s.drop (q + 1) := by
  cases hg : s.get? q with
  | none =>
    rw [List.get?_eq_none] at hg
    omega
  | some c =>
    refine ⟨c, rfl, ?_⟩
    rw [List.drop_eq_getElem_cons hq]
    have h3 : s[q]? = some s[q] := List.getElem?_eq_getElem hq
    rw [← List.get?_eq_getElem?, hg] at h3
    injection h3 with h4
    rw [← h4]

theorem spaceAt_eq (s : List Char) (i : Nat) (c : Char)
    (hg : s.get? i = some c) : spaceAt s i = isSpaceChar c := by
  unfold spaceAt tst
  rw [hg]

theorem wordEndGo_no_hyphen (s : List Char) (hhy : ∀ c ∈ s, c ≠ '-') :
    ∀ fuel q, q ≤ s.length → s.length ≤ fuel + q →
      wordEndGo s fuel q =
        q + ((s.drop q).takeWhile (fun c => !isSpaceChar c)).length := by
  intro fuel
  induction fuel with
  | zero =>
    intro q h1 h2
    have heq : q = s.length := by omega
    subst heq
    rw [List.drop_length]
    rfl
  | succ fuel ih =>
    intro q h1 h2
    rw [wordEndGo]
    by_cases hq : s.length ≤ q
    · rw [if_pos hq]
      have heq : q = s.length := le_antisymm h1 hq
      subst heq
      rw [List.drop_length]
      rfl
    · rw [if_neg hq]
      have hA : condA s q = false := by
        unfold condA
        rw [hyphAt_false s q hhy]
        simp
      rw [if_neg (by simp [hA])]
      obtain ⟨c, hgc, hdc⟩ := get_drop_cons s q (by omega)
      by_cases hsp : isSpaceChar c = true
      · have hB : condB s q = true := by
          unfold condB
          rw [spaceAt_eq s q c hgc, hsp]
          simp
        rw [if_pos hB, hdc, List.takeWhile_cons_of_neg (by simp [hsp])]
        rfl
      · have hB : condB s q = false := by
          unfold condB
          rw [spaceAt_eq s q c hgc]
          simp only [Bool.not_eq_true] at hsp
          rw [hsp, decide_eq_false hq]
          rfl
        have hC : condC s q = false := by
          unfold condC
          rw [hyphenRunLen_zero s q hhy]
          simp
        rw [if_neg (by simp [hB]), if_neg (by simp [hC]),
          ih (q + 1) (by omega) (by omega), hdc,
          List.takeWhile_cons_of_pos (by simp [hsp])]
        simp only [List.length_cons]
        omega

theorem chunkSplitGo_spec (s : List Char) (hhy : ∀ c ∈ s, c ≠ '-') :
    ∀ fuel i, s.length ≤ fuel + i →
      (∀ c ∈ chunkSplitGo s fuel i, c ≠ []) ∧
      (∀ c ∈ chunkSplitGo s fuel i,
        (∀ ch ∈ c, isSpaceChar ch = true) ∨ (∀ ch ∈ c, isSpaceChar ch = false)) ∧
      (∀ c ∈ chunkSplitGo s fuel i, ∀ ch ∈ c, ch ∈ s) ∧
      List.Chain' (fun a b => isBlank a = true ∨ isBlank b = true)
        (chunkSplitGo s fuel i) ∧
      (∀ c ∈ (chunkSplitGo s fuel i).head?, isBlank c = spaceAt s i) ∧
      wordChunks (chunkSplitGo s fuel i) = pyWords (s.drop i) := by
  intro fuel
  induction fuel with
  | zero =>
    intro i h
    refine ⟨(by intro c hc; cases hc), (by intro c hc; cases hc),
      (by intro c hc; cases hc), List.chain'_nil,
      (by intro c hc; rw [chunkSplitGo_done s 0 i (by omega)] at hc; simp at hc), ?_⟩
    rw [List.drop_eq_nil_of_le (by omega)]
    rfl
  | succ fuel ih =>
    intro i h
    by_cases hi : s.length ≤ i
    · rw [chunkSplitGo_done s (fuel + 1) i hi]
      refine ⟨(by intro c hc; cases hc), (by intro c hc; cases hc),
        (by intro c hc; cases hc), List.chain'_nil, (by intro c hc; simp at hc), ?_⟩
      rw [List.drop_eq_nil_of_le hi]
      rfl
    · by_cases hsp : spaceAt s i = true
      · have hstep : chunkSplitGo s (fuel + 1) i =
            sliceStr s i (i + ((s.drop i).takeWhile isSpaceChar).length) ::
              chunkSplitGo s fuel (i + ((s.drop i).takeWhile isSpaceChar).length) := by
          rw [chunkSplitGo, if_neg hi, if_pos hsp]
        have hrun := spaceRun_pos s i hsp
        have hchunk : sliceStr s i (i + ((s.drop i).takeWhile isSpaceChar).length) =
            (s.drop i).takeWhile isSpaceChar := by
          unfold sliceStr
          rw [Nat.add_sub_cancel_left]
          exact take_len_takeWhile isSpaceChar (s.drop i)
        have hdrop : s.drop (i + ((s.drop i).takeWhile isSpaceChar).length) =
            (s.drop i).dropWhile isSpaceChar := by
          rw [← drop_len_takeWhile isSpaceChar (s.drop i), List.drop_drop]
        have hchsp : ∀ ch ∈ sliceStr s i
            (i + ((s.drop i).takeWhile isSpaceChar).length), isSpaceChar ch = true := by
          rw [hchunk]
          intro ch hch
          exact List.mem_takeWhile_imp hch
        have hchne : sliceStr s i
            (i + ((s.drop i).takeWhile isSpaceChar).length) ≠ [] := by
          rw [hchunk]
          intro hcon
          have := congrArg List.length hcon
          simp only [List.length_nil] at this
          omega
        have hchsub : ∀ ch ∈ sliceStr s i
            (i + ((s.drop i).takeWhile isSpaceChar).length), ch ∈ s := by
          intro ch hch
          unfold sliceStr at hch
          exact List.drop_subset i s (List.take_subset _ _ hch)
        obtain ⟨i1, i2, i3, i4, i5, i6⟩ :=
          ih (i + ((s.drop i).takeWhile isSpaceChar).length) (by omega)
        rw [hstep]
        refine ⟨?_, ?_, ?_, ?_, ?_, ?_⟩
        · intro c hc
          rcases List.mem_cons.mp hc with rfl | hc'
          · exact hchne
          · exact i1 c hc'
        · intro c hc
          rcases List.mem_cons.mp hc with rfl | hc'
          · exact Or.inl hchsp
          · exact i2 c hc'
        · intro c hc
          rcases List.mem_cons.mp hc with rfl | hc'
          · exact hchsub
          · exact i3 c hc'
        · rw [List.chain'_cons']
          exact ⟨fun y _ => Or.inl ((isBlank_iff_spaces _).mpr hchsp), i4⟩
        · intro c hc
          simp only [List.head?_cons, Option.mem_def, Option.some.injEq] at hc
          subst hc
          rw [hsp]
          exact (isBlank_iff_spaces _).mpr hchsp
        · rw [wordChunks_cons_blank _ _ ((isBlank_iff_spaces _).mpr hchsp), i6, hdrop]
          have hta : (s.drop i).takeWhile isSpaceChar ++
              (s.drop i).dropWhile isSpaceChar = s.drop i := by simp
          conv_rhs => rw [← hta]
          rw [pyWords_spaces_append _ _ (fun ch hch => List.mem_takeWhile_imp hch)]
      · have hem : (decide (1 ≤ i) && wordAt s (i-1) &&
            decide (2 ≤ hyphenRunLen s i) && wordAt s (i + hyphenRunLen s i)) = false := by
          rw [hyphenRunLen_zero s i hhy]
          simp
        have hstep : chunkSplitGo s (fuel + 1) i =
            sliceStr s i (wordEndGo s (s.length + 1) (i + 1)) ::
              chunkSplitGo s fuel (wordEndGo s (s.length + 1) (i + 1)) := by
          rw [chunkSplitGo, if_neg hi, if_neg hsp, if_neg (by simp [hem])]
        obtain ⟨c, hgc, hdc⟩ := get_drop_cons s i (by omega)
        have hcsp : isSpaceChar c = false := by
          have hse := spaceAt_eq s i c hgc
          simp only [Bool.not_eq_true] at hsp
          rw [← hse]
          exact hsp
        have hq : wordEndGo s (s.length + 1) (i + 1) =
            (i + 1) + ((s.drop (i + 1)).takeWhile (fun ch => !isSpaceChar ch)).length :=
          wordEndGo_no_hyphen s hhy (s.length + 1) (i + 1) (by omega) (by omega)
        have htw : (s.drop i).takeWhile (fun ch => !isSpaceChar ch) =
            c :: (s.drop (i + 1)).takeWhile (fun ch => !isSpaceChar ch) := by
          rw [hdc, List.takeWhile_cons_of_pos (by simp [hcsp])]
        have hchunk : sliceStr s i (wordEndGo s (s.length + 1) (i + 1)) =
            (s.drop i).takeWhile (fun ch => !isSpaceChar ch) := by
          rw [hq]
          unfold sliceStr
          have hsub : (i + 1) +
              ((s.drop (i + 1)).takeWhile (fun ch => !isSpaceChar ch)).length - i =
              ((s.drop (i + 1)).takeWhile (fun ch => !isSpaceChar ch)).length + 1 := by
            omega
          rw [hsub, htw, hdc, List.take_succ_cons, take_len_takeWhile]
        have hchns : ∀ ch ∈ sliceStr s i (wordEndGo s (s.length + 1) (i + 1)),
            isSpaceChar ch = false := by
          rw [hchunk]
          intro ch hch
          have hmt := List.mem_takeWhile_imp hch
          simp only [Bool.not_eq_true'] at hmt
          exact hmt
        have hchne : sliceStr s i (wordEndGo s (s.length + 1) (i + 1)) ≠ [] := by
          rw [hchunk, htw]
          simp
        have hchsub : ∀ ch ∈ sliceStr s i (wordEndGo s (s.length + 1) (i + 1)),
            ch ∈ s := by
          intro ch hch
          unfold sliceStr at hch
          exact List.drop_subset i s (List.take_subset _ _ hch)
        have hchbl : isBlank (sliceStr s i (wordEndGo s (s.length + 1) (i + 1))) = false :=
          isBlank_false_of_word _ hchne hchns
        have hdropq : s.drop (wordEndGo s (s.length + 1) (i + 1)) =
            (s.drop i).dropWhile (fun ch => !isSpaceChar ch) := by
          rw [hq]
          have h1 := drop_len_takeWhile (fun ch => !isSpaceChar ch) (s.drop (i + 1))
          have h2 : (s.drop i).dropWhile (fun ch => !isSpaceChar ch) =
              (s.drop (i + 1)).dropWhile (fun ch => !isSpaceChar ch) := by
            rw [hdc, List.dropWhile_cons_of_pos (by simp [hcsp])]
          rw [h2, ← h1, List.drop_drop]
        have hafter : s.drop (wordEndGo s (s.length + 1) (i + 1)) = [] ∨
            ∃ d t', s.drop (wordEndGo s (s.length + 1) (i + 1)) = d :: t' ∧
              isSpaceChar d = true := by
          rcases head_dropWhile_not (fun ch => !isSpaceChar ch) (s.drop i) with
            hnil | ⟨e, t', het, hpe⟩
          · exact Or.inl (by rw [hdropq, hnil])
          · refine Or.inr ⟨e, t', by rw [hdropq, het], ?_⟩
            simpa using hpe
        have hqsp : ∀ _ : wordEndGo s (s.length + 1) (i + 1) < s.length,
            spaceAt s (wordEndGo s (s.length + 1) (i + 1)) = true := by
          intro hqlt
          obtain ⟨d, hgd, hdd⟩ := get_drop_cons s _ hqlt
          rw [spaceAt_eq s _ d hgd]
          rcases hafter with hnil | ⟨e, t', het, hse⟩
          · rw [hnil] at hdd
            exact absurd hdd.symm (List.cons_ne_nil d _)
          · rw [het] at hdd
            injection hdd with h1 _
            rw [← h1]
            exact hse
        obtain ⟨i1, i2, i3, i4, i5, i6⟩ :=
          ih (wordEndGo s (s.length + 1) (i + 1)) (by rw [hq]; omega)
        rw [hstep]
        refine ⟨?_, ?_, ?_, ?_, ?_, ?_⟩
        · intro c' hc
          rcases List.mem_cons.mp hc with rfl | hc'
          · exact hchne
          · exact i1 c' hc'
        · intro c' hc
          rcases List.mem_cons.mp hc with rfl | hc'
          · exact Or.inr hchns
          · exact i2 c' hc'
        · intro c' hc
          rcases List.mem_cons.mp hc with rfl | hc'
          · exact hchsub
          · exact i3 c' hc'
        · rw [List.chain'_cons']
          refine ⟨?_, i4⟩
          intro y hy
          right
          rw [i5 y hy]
          apply hqsp
          by_contra hge
          push_neg at hge
          rw [chunkSplitGo_done s fuel _ hge] at hy
          simp at hy
        · intro c' hc
          simp only [List.head?_cons, Option.mem_def, Option.some.injEq] at hc
          subst hc
          simp only [Bool.not_eq_true] at hsp
          rw [hchbl, hsp]
        · rw [wordChunks_cons_word _ _ hchbl, i6,
            ← slice_append_drop s i (wordEndGo s (s.length + 1) (i + 1)) (by rw [hq]; omega),
            pyWords_word_append _ _ hchne hchns hafter]

/-- C4 (amended): no content loss holds only for well-behaved paragraphs.
For a paragraph whose whitespace is plain spaces, which contains no
hyphens, and all of whose words fit the character budget `w ≥ 1`,
rejoining the wrapped lines with single spaces reproduces the original
word sequence exactly — no word is dropped, duplicated, or altered.  (The
unconditional claim is false: `break_long_words=True` cuts an over-budget
word, see the C4 counterexample.) -/
theorem C4_amended_no_content_loss (w : Nat) (p : List Char) (hw : 1 ≤ w)
    (hsp : ∀ c ∈ p, isSpaceChar c = true → c = ' ')
    (hhy : ∀ c ∈ p, c ≠ '-')
    (hlen : ∀ v ∈ pyWords p, v.length ≤ w) :
    pyWords (joinSpace (pyWrap w p)) = pyWords p := by
  simp only [pyWrap]
  rw [mungeWhitespace_id p hsp]
  unfold chunkSplit
  obtain ⟨k1, k2, k3, k4, k5, k6⟩ := chunkSplitGo_spec p hhy (p.length + 1) 0 (by omega)
  rw [List.drop_zero] at k6
  have hok : OkChunks w (chunkSplitGo p (p.length + 1) 0) := by
    refine ⟨?_, k1, k4⟩
    intro c hc
    rcases k2 c hc with hsp' | hns
    · exact Or.inl hsp'
    · right
      refine ⟨k1 c hc, ?_, ?_⟩
      · have hbl : isBlank c = false := isBlank_false_of_word c (k1 c hc) hns
        have hmem : c ∈ wordChunks (chunkSplitGo p (p.length + 1) 0) := by
          unfold wordChunks
          rw [List.mem_filter]
          exact ⟨hc, by rw [hbl]; rfl⟩
        rw [k6] at hmem
        exact hlen c hmem
      · intro ch hch
        exact ⟨hns ch hch, hhy ch (k3 c hc ch hch)⟩
  rw [wrapLoopGo_words w hw (msr (chunkSplitGo p (p.length + 1) 0)) []
    (chunkSplitGo p (p.length + 1) 0) (le_refl _) hok, k6]
  rfl

/-- Concrete instance of the amended C4 theorem: wrapping
`"hello world"` at width 50 and rejoining preserves the word list. -/
theorem C4_amended_no_content_loss_witness :
    pyWords (joinSpace (pyWrap 50 ("hello world").toList)) =
      pyWords ("hello world").toList :=
  C4_amended_no_content_loss 50 ("hello world").toList (by decide) (by decide)
    (by decide) (by decide)

end WeatherBot
